import Mathlib

/-!
# Source record field extractors and matchers of apt

A shallow embedding of `debSrcRecordParser::Binaries`, `::BuildDepends` and
`::Files` (`apt-pkg/deb/debsrcrecords.cc`) and of the matcher classes of
`apt-pkg/cachefilter.h`.  Strings (`std::string`, `char` buffers) are character lists,
pointers into a buffer are indices, `std::string::size_type` is a natural number
reduced modulo `2^64`, and an output parameter together with the error sink
`_error` is returned in a result record.  Loops whose termination depends on a
collaborator (the dependency parser, the word tokenizer) or on the input take a
fuel argument and answer `none` when it runs out.
-/

namespace Apt

/-- Contents of a `std::string` or of a `char` buffer. -/
abbrev Str := List Char

/-- The string terminator `'\0'`. -/
def NUL : Char := Char.ofNat 0

/-- The libc predicate `isspace` in the C locale: space, `\t`, `\n`, `\v`, `\f`, `\r`. -/
def isspace (c : Char) : Bool :=
  c = ' ' || c = Char.ofNat 9 || c = Char.ofNat 10 || c = Char.ofNat 11 ||
    c = Char.ofNat 12 || c = Char.ofNat 13

/-- The C string a `char` pointer denotes: the bytes before the first terminator. -/
def c_str (s : Str) : Str := s.takeWhile (fun c => c != NUL)

/-- Number of values of `std::string::size_type` (a 64-bit `size_t`). -/
def SIZE_T : Nat := 2 ^ 64

/-- The constant `std::string::npos`, which is `(size_t) -1`. -/
def npos : Nat := SIZE_T - 1

/-- Modelled from the spec: the tag section `Sect` of the record parser (class
`pkgTagSection`, declared outside these sources).  The spec describes a record as
named fields mapping a key to its raw text, looked up with `Find`; `Find tag` is
`none` when the record has no such field and otherwise the text between the
`Start` and `End` pointers the lookup hands back. -/
structure pkgTagSection where
  Find : Str → Option Str

/-- Modelled from the spec: `pkgTagSection::FindS`, the field lookup that gives a
copied string, empty when the field is absent. -/
def pkgTagSection.FindS (Sect : pkgTagSection) (Tag : Str) : Str :=
  (Sect.Find Tag).getD []

/-- A record given by its list of fields (the first entry of a key is the one found). -/
def mkSection (fields : List (Str × Str)) : pkgTagSection :=
  ⟨fun Tag => fields.lookup Tag⟩

/-! ## `debSrcRecordParser::Binaries` -/

/-- What a call of `Binaries` hands back: the null pointer, the null-terminated
array `StaticBinList` (its entries read as C strings, `none` for a null entry), or
no defined result because the call dereferenced a pointer outside `Buffer`. -/
inductive BinariesResult where
  | null
  | undefined
  | list (StaticBinList : List (Option Str))
  deriving DecidableEq

/-- The byte `Buffer[i]`; the byte at index `Buffer.length` is the terminator
`strndup` appended. -/
def byteAt (Buffer : Str) (i : Nat) : Char := Buffer.getD i NUL

/-- The libc function `strchrnul(Buffer + bin, c)`, as an index into `Buffer`: the
first position from `bin` on holding `c` or a terminator. -/
def strchrnul (Buffer : Str) (bin : Nat) (c : Char) : Nat :=
  bin + ((Buffer.drop bin).takeWhile (fun x => x != c && x != NUL)).length

/-- The loop `for (bin = p; isspace(*bin) != 0; ++bin);` as an index into `Buffer`. -/
def skipSpaces (Buffer : Str) (p : Nat) : Nat :=
  p + ((Buffer.drop p).takeWhile isspace).length

/-- The `do { ... } while (*bin != '\0')` loop of `Binaries`.  `bin` is an index
into `Buffer`, `StaticBinList` holds the pointers pushed so far.  The answer is
`some none` when the loop dereferences an invalid pointer, and
`some (some (Buffer, StaticBinList))` when it leaves normally.

The inner loop is `for (; isspace(*binEnd) != 0; --binEnd) binEnd = '\0';` with
`binEnd = binStartNext - 1`: for `binStartNext = Buffer` the first test reads
`Buffer[-1]`; when the byte before `binStartNext` is white space the body assigns
the null pointer to `binEnd` (it does not write a terminator through it), and the
following `--binEnd` and `*binEnd` act on that null pointer. -/
def Binaries.scan : Nat → Str → Nat → List Nat → Option (Option (Str × List Nat))
  | 0, _, _, _ => none
  | fuel + 1, Buffer, bin, StaticBinList =>
    match strchrnul Buffer bin ',' with
    | 0 => some none
    | binEnd + 1 =>
      if isspace (byteAt Buffer binEnd) then some none
      else
        let binStartNext := binEnd + 1
        let StaticBinList1 := StaticBinList ++ [bin]
        if byteAt Buffer binStartNext != ',' then some (some (Buffer, StaticBinList1))
        else
          let Buffer1 := Buffer.set binStartNext NUL
          let bin1 := skipSpaces Buffer1 (binStartNext + 1)
          if byteAt Buffer1 bin1 != NUL then Binaries.scan fuel Buffer1 bin1 StaticBinList1
          else some (some (Buffer1, StaticBinList1))

/-- The method `debSrcRecordParser::Binaries`.  `none` would mean that the loop did not
finish within `Buffer.length + 1` rounds (every round moves `bin` forward). -/
def Binaries (Sect : pkgTagSection) : Option BinariesResult :=
  match Sect.Find "Binary".toList with
  | none => some BinariesResult.null
  | some field =>
    -- for (; isspace(*Start) != 0; ++Start);  if (Start >= End) return NULL;
    let Start := field.dropWhile isspace
    if Start = [] then some BinariesResult.null
    else
      -- Buffer = strndup(Start, End - Start);
      let Buffer := c_str Start
      match Binaries.scan (Buffer.length + 1) Buffer 0 [] with
      | none => none
      | some none => some BinariesResult.undefined
      | some (some (Buffer1, StaticBinList)) =>
        some (BinariesResult.list
          (StaticBinList.map (fun p => some (c_str (Buffer1.drop p))) ++ [none]))

/-! ## `debSrcRecordParser::BuildDepends` -/

/-- One entry of the output vector (`pkgSrcRecords::Parser::BuildDepRec`). -/
structure BuildDepRec where
  Package : Str
  Version : Str
  Op : Nat
  Type_ : Nat
  deriving DecidableEq

/-- What one successful call of `debListParser::ParseDepends` hands back: the
three output strings and `rest`, the text between the returned pointer and `Stop`
(`rest = []` is the test `Start == Stop`). -/
structure DepClause where
  Package : Str
  Version : Str
  Op : Nat
  rest : Str
  deriving DecidableEq

/-- The dependency parser `debListParser::ParseDepends(Start, Stop, ...)`, which is
outside these sources and is taken as a parameter: it is given the text between
`Start` and `Stop` and the flag `StripMultiArch`, and answers `none` for the null
pointer. -/
abbrev DepParser := Str → Bool → Option DepClause

/-- The array `fields` of `BuildDepends`. -/
def BuildDepends.fields : Nat → Str
  | 0 => "Build-Depends".toList
  | 1 => "Build-Depends-Indep".toList
  | 2 => "Build-Conflicts".toList
  | _ => "Build-Conflicts-Indep".toList

/-- Outcome of `BuildDepends`: the returned flag, the messages handed to
`_error->Error`, and the contents of the output parameter `BuildDeps` at return. -/
structure BuildDependsResult where
  ret : Bool
  errors : List Str
  BuildDeps : List BuildDepRec
  deriving DecidableEq

/-- The `while (1)` loop of `BuildDepends` for field number `I`; `Start` is the text
still to parse.  The answer `(false, BuildDeps)` is the exit through
`return _error->Error(...)`, `(true, BuildDeps)` the exit through `break`. -/
def BuildDepends.clauseLoop (ParseDepends : DepParser) (StripMultiArch : Bool) (I : Nat) :
    Nat → Str → List BuildDepRec → Option (Bool × List BuildDepRec)
  | 0, _, _ => none
  | fuel + 1, Start, BuildDeps =>
    match ParseDepends Start StripMultiArch with
    | none => some (false, BuildDeps)
    | some c =>
      let rec1 : BuildDepRec := ⟨c.Package, c.Version, c.Op, I⟩
      let BuildDeps1 := if rec1.Package ≠ [] then BuildDeps ++ [rec1] else BuildDeps
      if c.rest = [] then some (true, BuildDeps1)
      else BuildDepends.clauseLoop ParseDepends StripMultiArch I fuel c.rest BuildDeps1

/-- The message of `_error->Error("Problem parsing dependency: %s", fields[I])`. -/
def BuildDepends.message (I : Nat) : Str :=
  "Problem parsing dependency: ".toList ++ BuildDepends.fields I

/-- The loop `for (I = 0; I < 4; I++)` of `BuildDepends`, over the values of `I` still
to come. -/
def BuildDepends.fieldLoop (ParseDepends : DepParser) (fuel : Nat) (ArchOnly StripMultiArch : Bool)
    (Sect : pkgTagSection) : List Nat → List BuildDepRec → Option BuildDependsResult
  | [], BuildDeps => some ⟨true, [], BuildDeps⟩
  | I :: Is, BuildDeps =>
    if ArchOnly && (I == 1 || I == 3) then
      BuildDepends.fieldLoop ParseDepends fuel ArchOnly StripMultiArch Sect Is BuildDeps
    else
      match Sect.Find (BuildDepends.fields I) with
      | none => BuildDepends.fieldLoop ParseDepends fuel ArchOnly StripMultiArch Sect Is BuildDeps
      | some Start =>
        match BuildDepends.clauseLoop ParseDepends StripMultiArch I fuel Start BuildDeps with
        | none => none
        | some (false, BuildDeps1) => some ⟨false, [BuildDepends.message I], BuildDeps1⟩
        | some (true, BuildDeps1) =>
          BuildDepends.fieldLoop ParseDepends fuel ArchOnly StripMultiArch Sect Is BuildDeps1

/-- The method `debSrcRecordParser::BuildDepends`.  `fuel` bounds the number of clauses
read from one field; `none` means the bound was reached. -/
def BuildDepends (ParseDepends : DepParser) (fuel : Nat) (ArchOnly StripMultiArch : Bool)
    (Sect : pkgTagSection) : Option BuildDependsResult :=
  -- BuildDeps.clear();
  BuildDepends.fieldLoop ParseDepends fuel ArchOnly StripMultiArch Sect [0, 1, 2, 3] []

/-- Modelled from the spec: `debListParser::ParseDepends` is outside these sources and
the spec treats it as a black box that reads one dependency clause at a time and may
fail.  This stand-in reads `name` or `name (version)` followed by a comma or the end
of the text, cuts an architecture qualifier `:arch` off the name when asked to, and
fails on an unclosed parenthesis or on other text after the clause.  It serves to run
`BuildDepends` on concrete records; the general statements hold for every parser. -/
def ParseDepends : DepParser := fun text StripMultiArch =>
  let s := text.dropWhile isspace
  let name := s.takeWhile (fun c => !(isspace c) && c != ',' && c != '(')
  let Package := if StripMultiArch then name.takeWhile (fun c => c != ':') else name
  match (s.drop name.length).dropWhile isspace with
  | [] => some ⟨Package, [], 0, []⟩
  | c :: s2 =>
    if c = ',' then some ⟨Package, [], 0, s2.dropWhile isspace⟩
    else if c = '(' then
      let Version := s2.takeWhile (fun c => c != ')')
      match s2.drop Version.length with
      | [] => none
      | _ :: s3 =>
        match s3.dropWhile isspace with
        | [] => some ⟨Package, Version, 1, []⟩
        | d :: s4 => if d = ',' then some ⟨Package, Version, 1, s4.dropWhile isspace⟩ else none
    else none

/-- The clauses the dependency parser reads off `text`, one after the other: with
`true` when the text was exhausted, with `false` when the parser failed after them. -/
def clausesOf (ParseDepends : DepParser) (StripMultiArch : Bool) :
    Nat → Str → Option (List DepClause × Bool)
  | 0, _ => none
  | fuel + 1, text =>
    match ParseDepends text StripMultiArch with
    | none => some ([], false)
    | some c =>
      if c.rest = [] then some ([c], true)
      else
        match clausesOf ParseDepends StripMultiArch fuel c.rest with
        | none => none
        | some (cs, ok) => some (c :: cs, ok)

/-- The clauses of field number `I` as `BuildDepends` gets to see them: none for a
field it skips (an Indep field under `ArchOnly`) or that the record lacks. -/
def fieldClauses (ParseDepends : DepParser) (fuel : Nat) (ArchOnly StripMultiArch : Bool)
    (Sect : pkgTagSection) (I : Nat) : Option (List DepClause × Bool) :=
  if ArchOnly && (I == 1 || I == 3) then some ([], true)
  else
    match Sect.Find (BuildDepends.fields I) with
    | none => some ([], true)
    | some text => clausesOf ParseDepends StripMultiArch fuel text

/-- The tuples kept for a list of clauses of field `I`: those with a non-empty package
name, in order, tagged with `I`. -/
def retained (I : Nat) (cs : List DepClause) : List BuildDepRec :=
  (cs.filter (fun c => c.Package ≠ [])).map (fun c => ⟨c.Package, c.Version, c.Op, I⟩)

/-- The tuples kept for the fields before number `I`, in field order, when `f J` are
the clauses of field `J`. -/
def retainedBefore (f : Nat → List DepClause) : Nat → List BuildDepRec
  | 0 => []
  | I + 1 => retainedBefore f I ++ retained I (f I)

/-! ## `debSrcRecordParser::Files` -/

/-- The pair a `HashString(Type, Hash)` is built from.  Its rendering as one string by
`HashString::toStr` is outside these sources, so `File.Hash` keeps the pair. -/
structure HashString where
  Type_ : Str
  Hash : Str
  deriving DecidableEq

/-- One entry of the output vector (`pkgSrcRecords::File`); `Size` is an unsigned
64-bit integer. -/
structure File where
  MD5Hash : Str
  Size : Nat
  Path : Str
  Type_ : Str
  Hash : HashString
  deriving DecidableEq

/-- The table `SourceHashFields` of `Files`: field name and hash kind. -/
def SourceHashFields : List (Str × Str) :=
  [("Checksums-Sha512".toList, "SHA512".toList),
   ("Checksums-Sha256".toList, "SHA256".toList),
   ("Checksums-Sha1".toList, "SHA1".toList),
   ("Files".toList, "MD5Sum".toList)]

/-- The tokenizer `ParseQuoteWord(C, Res)`, which is outside these sources and is
taken as a parameter: given the C string at `C` it answers `none` for `false` and
otherwise the word `Res` together with the C string at the advanced pointer `C`. -/
abbrev WordParser := Str → Option (Str × Str)

/-- The libc predicate `isdigit`. -/
def isdigit (c : Char) : Bool := decide (48 ≤ c.toNat) && decide (c.toNat ≤ 57)

/-- Value of a string of decimal digits read after the value `acc`. -/
def digitsValue : Str → Nat → Nat
  | [], acc => acc
  | c :: cs, acc => digitsValue cs (10 * acc + (c.toNat - 48))

/-- The libc function `strtol(s, NULL, 10)` with a 64-bit `long`: white space, an
optional sign, the longest run of digits, the value clamped to the range of `long`. -/
def strtol10 (s : Str) : Int :=
  let s1 := s.dropWhile isspace
  let neg := s1.head? = some '-'
  let s2 := if s1.head? = some '-' ∨ s1.head? = some '+' then s1.drop 1 else s1
  let v : Int := digitsValue (s2.takeWhile isdigit) 0
  let w : Int := if neg then -v else v
  if w < -(2 ^ 63) then -(2 ^ 63) else if 2 ^ 63 - 1 < w then 2 ^ 63 - 1 else w

/-- The libc function `atoi`, which is `(int) strtol(s, NULL, 10)` with a 32-bit
`int` in two's complement. -/
def atoi (s : Str) : Int :=
  (strtol10 s + 2 ^ 31) % 2 ^ 32 - 2 ^ 31

/-- The assignment `F.Size = atoi(Size.c_str())`: the `int` converted to the
unsigned 64-bit type of `Size`. -/
def sizeOfInt (n : Int) : Nat := (n % 2 ^ 64).toNat

/-- Index of the last occurrence of `c` in `s` at a position not after `pos`. -/
def rfindIdx (c : Char) : Str → Nat → Option Nat
  | [], _ => none
  | x :: _, 0 => if x = c then some 0 else none
  | x :: xs, pos + 1 =>
    match rfindIdx c xs pos with
    | some i => some (i + 1)
    | none => if x = c then some 0 else none

/-- The member `std::string::rfind(c, pos)`: the last position not after `pos` that
holds `c`, or `npos`. -/
def rfind (s : Str) (c : Char) (pos : Nat) : Nat := (rfindIdx c s pos).getD npos

/-- The constructor `std::string(s, pos, n)`: at most `n` bytes of `s` from `pos` on. -/
def substr (s : Str) (pos n : Nat) : Str := (s.drop pos).take n

/-- The `while (1)` loop of `Files` that guesses `F.Type` from `F.Path`; `Pos` and
`Tmp` are `size_type` values, `Type_` is the current `F.Type`.  `none` means the
loop did not leave within `fuel` rounds. -/
def Files.guessType (compExts : List Str) (Path : Str) : Nat → Nat → Str → Option Str
  | 0, _, _ => none
  | fuel + 1, Pos, Type_ =>
    let Tmp := rfind Path '.' Pos
    if Tmp = npos then some Type_
    else if Type_ = "tar".toList then
      if substr Path ((Tmp + 1) % SIZE_T) ((Pos + SIZE_T - Tmp) % SIZE_T) = "debian".toList then
        some "diff".toList
      else some Type_
    else
      let Type1 := substr Path ((Tmp + 1) % SIZE_T) ((Pos + SIZE_T - Tmp) % SIZE_T)
      if ('.' :: Type1) ∈ compExts ∨ Type1 = "tar".toList then
        Files.guessType compExts Path fuel ((Tmp + SIZE_T - 1) % SIZE_T) Type1
      else some Type1

/-- The type `Files` guesses for the full path `Path`: the loop started at
`Pos = F.Path.length() - 1` with an empty `F.Type`. -/
def Files.typeOf (compExts : List Str) (fuel : Nat) (Path : Str) : Option Str :=
  Files.guessType compExts Path fuel ((Path.length + SIZE_T - 1) % SIZE_T) []

/-- The directory prefix `Base` of `Files`: the Directory field, with a `/` appended
when it is not empty and does not end in one. -/
def Files.base (Sect : pkgTagSection) : Str :=
  let Base := Sect.FindS "Directory".toList
  if Base ≠ [] ∧ Base.getLast? ≠ some '/' then Base ++ ['/'] else Base

/-- The entry `Files` builds from the three words of a triplet of the field with
hash kind `kind`; `none` when the type loop does not finish within `fuel` rounds. -/
def Files.entry (compExts : List Str) (fuel : Nat) (kind Base RawHash Size Path : Str) :
    Option File :=
  match Files.typeOf compExts fuel (Base ++ Path) with
  | none => none
  | some Type_ =>
    some ⟨if kind = "MD5Sum".toList then RawHash else [], sizeOfInt (atoi Size), Base ++ Path,
      Type_, ⟨kind, RawHash⟩⟩

/-- The loop `while (*C != 0)` of `Files` over the triplets of one field; `C` is the C
string still to read and `List` the output vector.  The answer `(false, List)` is the
exit through `return _error->Error(...)`, `(true, List)` the regular exit. -/
def Files.tripletLoop (ParseQuoteWord : WordParser) (compExts : List Str) (typeFuel : Nat)
    (kind Base : Str) : Nat → Str → List File → Option (Bool × List File)
  | 0, _, _ => none
  | fuel + 1, C, List =>
    if C = [] then some (true, List)
    else
      match ParseQuoteWord C with
      | none => some (false, List)
      | some (RawHash, C1) =>
        match ParseQuoteWord C1 with
        | none => some (false, List)
        | some (Size, C2) =>
          match ParseQuoteWord C2 with
          | none => some (false, List)
          | some (Path, C3) =>
            match Files.entry compExts typeFuel kind Base RawHash Size Path with
            | none => none
            | some F =>
              Files.tripletLoop ParseQuoteWord compExts typeFuel kind Base fuel C3 (List ++ [F])

/-- Outcome of `Files`: the returned flag, the messages handed to `_error->Error`, and
the contents of the output parameter `List` at return. -/
structure FilesResult where
  ret : Bool
  errors : List Str
  List : List File
  deriving DecidableEq

/-- The message of `_error->Error("Error parsing '%s' record", name)`. -/
def Files.message (name : Str) : Str :=
  "Error parsing '".toList ++ name ++ "' record".toList

/-- The `for` loop of `Files` over the rows of `SourceHashFields` still to come.  A row
whose field is empty is passed over (`continue`); the first other row is read and ends
the loop (`break`), after which `List.size() > 0` is returned. -/
def Files.fieldLoop (ParseQuoteWord : WordParser) (compExts : List Str) (fuel : Nat)
    (Sect : pkgTagSection) : List (Str × Str) → Option FilesResult
  | [] => some ⟨false, [], []⟩
  | row :: rows =>
    if Sect.FindS row.1 = [] then Files.fieldLoop ParseQuoteWord compExts fuel Sect rows
    else
      match Files.tripletLoop ParseQuoteWord compExts fuel row.2 (Files.base Sect) fuel
          (c_str (Sect.FindS row.1)) [] with
      | none => none
      | some (false, List) => some ⟨false, [Files.message row.1], List⟩
      | some (true, List) => some ⟨decide (0 < List.length), [], List⟩

/-- The method `debSrcRecordParser::Files`; `compExts` is the value of
`APT::Configuration::getCompressorExtensions()`.  `fuel` bounds the number of
triplets read and the rounds of each type loop; `none` means a bound was reached. -/
def Files (ParseQuoteWord : WordParser) (compExts : List Str) (fuel : Nat)
    (Sect : pkgTagSection) : Option FilesResult :=
  -- List.erase(List.begin(),List.end());
  Files.fieldLoop ParseQuoteWord compExts fuel Sect SourceHashFields

/-- The word at the head of `s` up to unquoted white space, double quotes taken out,
and the text after it; `none` when a quote is left open. -/
def quoteWord : Str → Bool → Option (Str × Str)
  | [], false => some ([], [])
  | [], true => none
  | c :: cs, false =>
    if c = Char.ofNat 34 then quoteWord cs true
    else if isspace c then some ([], c :: cs)
    else (quoteWord cs false).map (fun r => (c :: r.1, r.2))
  | c :: cs, true =>
    if c = Char.ofNat 34 then quoteWord cs false
    else (quoteWord cs true).map (fun r => (c :: r.1, r.2))

/-- Modelled from the spec: `ParseQuoteWord` is outside these sources; the spec
describes the hash fields as whitespace/quote-delimited words.  This stand-in skips
white space, fails at the end of the text or on an open quote, and otherwise gives
the next word and the text after the white space that follows it.  It serves to run
`Files` on concrete records; the general statements hold for every tokenizer. -/
def ParseQuoteWord : WordParser := fun C =>
  match C.dropWhile isspace with
  | [] => none
  | c :: cs => (quoteWord (c :: cs) false).map (fun r => (r.1, r.2.dropWhile isspace))

/-- The words of one hash-field entry. -/
structure Triplet where
  RawHash : Str
  Size : Str
  Path : Str
  deriving DecidableEq

/-- The triplets the tokenizer reads off `C`, one after the other: with `true` when
the text was exhausted, with `false` when one of the three words of the next triplet
could not be read. -/
def tripletsOf (ParseQuoteWord : WordParser) : Nat → Str → Option (List Triplet × Bool)
  | 0, _ => none
  | fuel + 1, C =>
    if C = [] then some ([], true)
    else
      match ParseQuoteWord C with
      | none => some ([], false)
      | some (RawHash, C1) =>
        match ParseQuoteWord C1 with
        | none => some ([], false)
        | some (Size, C2) =>
          match ParseQuoteWord C2 with
          | none => some ([], false)
          | some (Path, C3) =>
            match tripletsOf ParseQuoteWord fuel C3 with
            | none => none
            | some (ts, ok) => some (⟨RawHash, Size, Path⟩ :: ts, ok)

/-- The entries `Files` builds for a list of triplets of the field with hash kind
`kind`, in order; `none` when one of the type loops does not finish within `fuel`
rounds. -/
def Files.entries (compExts : List Str) (fuel : Nat) (kind Base : Str) :
    List Triplet → Option (List File)
  | [] => some []
  | t :: ts =>
    match Files.entry compExts fuel kind Base t.RawHash t.Size t.Path with
    | none => none
    | some F =>
      match Files.entries compExts fuel kind Base ts with
      | none => none
      | some Fs => some (F :: Fs)

/-- Field name in row `i` of `SourceHashFields`. -/
def hashField (i : Nat) : Str := (SourceHashFields.getD i ([], [])).1

/-- Hash kind in row `i` of `SourceHashFields`. -/
def hashKind (i : Nat) : Str := (SourceHashFields.getD i ([], [])).2

/-! ## Sample records -/

/-- A record with all four build-dependency fields; the Build-Depends field has a
clause with an empty package name. -/
def recordAllFour : pkgTagSection :=
  mkSection [("Build-Depends".toList, "a, ,b".toList),
    ("Build-Depends-Indep".toList, "d".toList),
    ("Build-Conflicts".toList, "e".toList),
    ("Build-Conflicts-Indep".toList, "g".toList)]

/-- A record whose Build-Depends field has a well-formed clause followed by one with an
unclosed parenthesis. -/
def recordUnclosed : pkgTagSection :=
  mkSection [("Build-Depends".toList, "a, b (>= 2".toList)]

/-- A record whose only hash field is Checksums-Sha256, holding one triplet. -/
def recordSha256 : pkgTagSection :=
  mkSection [("Checksums-Sha256".toList, "abc123 1234 foo_1.0.orig.tar.gz".toList)]

/-- A record with a Directory, a Checksums-Sha256 field and a Files field. -/
def recordTwoHashFields : pkgTagSection :=
  mkSection [("Directory".toList, "pool/f".toList),
    ("Files".toList, "aa 10 f_1.dsc bb 20 f_1.tar.gz".toList),
    ("Checksums-Sha256".toList, "cc 10 f_1.dsc".toList)]

/-- A record whose Files field has a well-formed triplet followed by a cut-off one. -/
def recordCutOff : pkgTagSection :=
  mkSection [("Files".toList, "aa 10 f_1.dsc bb".toList)]

/-- A record whose Binary field has white space before a comma. -/
def recordBinarySpace : pkgTagSection :=
  mkSection [("Binary".toList, "libfoo1 , libfoo-dev".toList)]

/-- A record without a Directory whose Files field lists the file name ".gz". -/
def recordDotGz : pkgTagSection :=
  mkSection [("Files".toList, "aa 10 .gz".toList)]

/-- A record whose Files field gives a size of 2^31 bytes. -/
def recordBigSize : pkgTagSection :=
  mkSection [("Files".toList, "aa 2147483648 big.tar".toList)]

/-- A record whose Directory value contains a dot, listing a file name without one. -/
def recordDottedDirectory : pkgTagSection :=
  mkSection [("Directory".toList, "v1.0".toList), ("Files".toList, "aa 10 README".toList)]

/-- The same record with a Directory value without a dot. -/
def recordPlainDirectory : pkgTagSection :=
  mkSection [("Directory".toList, "v1".toList), ("Files".toList, "aa 10 README".toList)]

/-! ## `apt-pkg/cachefilter.h` -/

/-- The class `Matcher`: its three call operators, on a package, a group and a
version.  The iterator classes of the package cache are outside these sources and are
type parameters; a call is taken to depend on its argument only. -/
structure Matcher (PkgIterator GrpIterator VerIterator : Type) where
  callPkg : PkgIterator → Bool
  callGrp : GrpIterator → Bool
  callVer : VerIterator → Bool

/-- The class `PackageMatcher` for a subclass that defines the package operator as
`callPkg` and overrides nothing else: the version operator is
`return (*this)(Ver.ParentPkg());` and the group operator is `return false;`.
`ParentPkg` is the member `VerIterator::ParentPkg` of the package cache. -/
def PackageMatcher {PkgIterator GrpIterator VerIterator : Type}
    (ParentPkg : VerIterator → PkgIterator) (callPkg : PkgIterator → Bool) :
    Matcher PkgIterator GrpIterator VerIterator :=
  ⟨callPkg, fun _ => false, fun Ver => callPkg (ParentPkg Ver)⟩

/-- Modelled from the spec: the call operators of `NOTMatcher` are defined outside these
sources (the header only declares them); the spec says that it negates its single child
for all three entity kinds. -/
def NOTMatcher {PkgIterator GrpIterator VerIterator : Type}
    (matcher : Matcher PkgIterator GrpIterator VerIterator) :
    Matcher PkgIterator GrpIterator VerIterator :=
  ⟨fun Pkg => !matcher.callPkg Pkg, fun Grp => !matcher.callGrp Grp,
    fun Ver => !matcher.callVer Ver⟩

/-- Modelled from the spec: the evaluation of an AND node, children left to right, which
stops at the first false and returns true on empty. -/
def ANDMatcher.eval {α : Type} (call : α → Bool) : List α → Bool
  | [] => true
  | m :: ms => if call m = false then false else ANDMatcher.eval call ms

/-- Modelled from the spec: the evaluation of an OR node, children left to right, which
stops at the first true and returns false on empty. -/
def ORMatcher.eval {α : Type} (call : α → Bool) : List α → Bool
  | [] => false
  | m :: ms => if call m = true then true else ORMatcher.eval call ms

/-- Modelled from the spec: the call operators of `ANDMatcher` are defined outside these
sources; `matchers` is the member vector, in insertion order, and each entity kind is
evaluated by a traversal of its own. -/
def ANDMatcher {PkgIterator GrpIterator VerIterator : Type}
    (matchers : List (Matcher PkgIterator GrpIterator VerIterator)) :
    Matcher PkgIterator GrpIterator VerIterator :=
  ⟨fun Pkg => ANDMatcher.eval (fun m => m.callPkg Pkg) matchers,
    fun Grp => ANDMatcher.eval (fun m => m.callGrp Grp) matchers,
    fun Ver => ANDMatcher.eval (fun m => m.callVer Ver) matchers⟩

/-- Modelled from the spec: the call operators of `ORMatcher` are defined outside these
sources; `matchers` is the member vector, in insertion order. -/
def ORMatcher {PkgIterator GrpIterator VerIterator : Type}
    (matchers : List (Matcher PkgIterator GrpIterator VerIterator)) :
    Matcher PkgIterator GrpIterator VerIterator :=
  ⟨fun Pkg => ORMatcher.eval (fun m => m.callPkg Pkg) matchers,
    fun Grp => ORMatcher.eval (fun m => m.callGrp Grp) matchers,
    fun Ver => ORMatcher.eval (fun m => m.callVer Ver) matchers⟩

/-- An architecture specification as the spec's data model has it: the slots libc,
kernel and cpu, each a literal token or the wildcard "any". -/
structure ArchSpec where
  libc : Str
  kernel : Str
  cpu : Str
  deriving DecidableEq

/-- The tokens of `s` between its `-` characters, the one under construction being
`cur`. -/
def splitDash : Str → Str → List Str
  | [], cur => [cur]
  | c :: cs, cur => if c = '-' then cur :: splitDash cs [] else splitDash cs (cur ++ [c])

/-- Modelled from the spec: the parsing of an architecture specification string, which is
defined outside these sources.  The input is split at `-` into one to three tokens; a
single token is "any" for the all-wildcard triple, or a short name the known-architecture
table `table` maps to its triple, or else a cpu with libc and kernel "any"; two tokens
are kernel and cpu (the header's examples `linux-any`, `any-amd64`) with libc "any";
three are libc, kernel and cpu.  No other string is a specification. -/
def ArchSpec.parse (table : Str → Option ArchSpec) (s : Str) : Option ArchSpec :=
  match splitDash s [] with
  | [t] =>
    if t = "any".toList then some ⟨"any".toList, "any".toList, "any".toList⟩
    else
      match table t with
      | some a => some a
      | none => some ⟨"any".toList, "any".toList, t⟩
  | [k, c] => some ⟨"any".toList, k, c⟩
  | [l, k, c] => some ⟨l, k, c⟩
  | _ => none

/-- Modelled from the spec: a pair of slots matches when either side is "any" or the two
are textually equal. -/
def ArchSpec.slotMatches (a b : Str) : Bool :=
  decide (a = "any".toList) || decide (b = "any".toList) || decide (a = b)

/-- Modelled from the spec: two specifications are compatible when each pair of slots
matches. -/
def ArchSpec.compatible (a b : ArchSpec) : Bool :=
  ArchSpec.slotMatches a.libc b.libc && ArchSpec.slotMatches a.kernel b.kernel &&
    ArchSpec.slotMatches a.cpu b.cpu

/-- The members of `PackageArchitectureMatchesSpecification` the constructor is given:
the specification string and the flag `isPattern`. -/
structure PackageArchitectureMatchesSpecification where
  literal : Str
  isPattern : Bool

/-- Modelled from the spec: `operator() (char const * const &arch)` of
`PackageArchitectureMatchesSpecification`, defined outside these sources.  The string the
object was built from and `arch` are parsed, the one the flag `isPattern` names being the
pattern, and the two specifications are compared slot by slot; a string that is no
specification matches nothing. -/
def PackageArchitectureMatchesSpecification.call (table : Str → Option ArchSpec)
    (m : PackageArchitectureMatchesSpecification) (arch : Str) : Bool :=
  let pattern := if m.isPattern then m.literal else arch
  let fixed := if m.isPattern then arch else m.literal
  match ArchSpec.parse table pattern, ArchSpec.parse table fixed with
  | some p, some f => ArchSpec.compatible p f
  | _, _ => false

/-- A known-architecture table with the single short name "i386". -/
def sampleArchTable : Str → Option ArchSpec := fun t =>
  if t = "i386".toList then some ⟨"gnu".toList, "linux".toList, "i386".toList⟩ else none

/-! ## Facts about `Binaries` -/

/-- A byte other than the terminator lies inside the buffer. -/
theorem lt_length_of_byteAt_ne (Buffer : Str) (i : Nat) (h : byteAt Buffer i ≠ NUL) :
    i < Buffer.length := by
  by_contra hge
  apply h
  unfold byteAt
  rw [List.getD_eq_default _ _ (by omega)]

/-- The loop of `Binaries` leaves within `Buffer.length - bin + 1` rounds. -/
theorem Binaries_scan_isSome :
    ∀ (fuel : Nat) (Buffer : Str) (bin : Nat) (l : List Nat),
      Buffer.length - bin < fuel → (Binaries.scan fuel Buffer bin l).isSome := by
  intro fuel
  induction fuel with
  | zero => intro Buffer bin l h; omega
  | succ n ih =>
    intro Buffer bin l h
    rw [Binaries.scan]
    have hge : bin ≤ strchrnul Buffer bin ',' := Nat.le_add_right _ _
    rcases hs : strchrnul Buffer bin ',' with _ | binEnd
    · rfl
    simp only []
    by_cases h1 : isspace (byteAt Buffer binEnd) = true
    · simp [h1]
    simp only [h1, if_false]
    by_cases h2 : (byteAt Buffer (binEnd + 1) != ',') = true
    · simp [h2]
    simp only [h2, if_false]
    by_cases h3 : (byteAt (Buffer.set (binEnd + 1) NUL)
        (skipSpaces (Buffer.set (binEnd + 1) NUL) (binEnd + 1 + 1)) != NUL) = true
    · simp only [h3, if_true]
      apply ih
      have hlt := lt_length_of_byteAt_ne _ _ (by simpa using h3)
      have hsk : binEnd + 1 + 1 ≤ skipSpaces (Buffer.set (binEnd + 1) NUL) (binEnd + 1 + 1) :=
        Nat.le_add_right _ _
      rw [hs] at hge
      rw [List.length_set] at hlt ⊢
      omega
    · simp [h3]

/-- The fuel `Binaries` gives its loop is enough: the model always has an outcome. -/
theorem Binaries_isSome (Sect : pkgTagSection) : (Binaries Sect).isSome := by
  unfold Binaries
  rcases Sect.Find "Binary".toList with _ | field
  · rfl
  simp only []
  by_cases h : field.dropWhile isspace = []
  · simp [h]
  simp only [h, if_false]
  have := Binaries_scan_isSome ((c_str (field.dropWhile isspace)).length + 1)
    (c_str (field.dropWhile isspace)) 0 [] (by omega)
  rcases hs : Binaries.scan ((c_str (field.dropWhile isspace)).length + 1)
    (c_str (field.dropWhile isspace)) 0 [] with _ | _ | ⟨B, l⟩
  · rw [hs] at this; simp at this
  · rfl
  · rfl

/-! ## Facts about `BuildDepends` -/

/-- The clause loop pushes, onto what the list held, the tuples kept for the clauses read. -/
theorem clauseLoop_eq (pd : DepParser) (strip : Bool) (I : Nat) :
    ∀ (fuel : Nat) (text : Str) (acc : List BuildDepRec),
      BuildDepends.clauseLoop pd strip I fuel text acc =
        (clausesOf pd strip fuel text).map (fun p => (p.2, acc ++ retained I p.1)) := by
  intro fuel
  induction fuel with
  | zero => intro text acc; rfl
  | succ n ih =>
    intro text acc
    unfold BuildDepends.clauseLoop clausesOf
    cases hp : pd text strip with
    | none => simp [retained]
    | some c =>
      by_cases hr : c.rest = [] <;> by_cases hpk : c.Package = []
      · simp [hr, hpk, retained]
      · simp [hr, hpk, retained]
      · simp only [hr, hpk, if_false, ne_eq, not_true_eq_false]
        rw [ih]
        cases hc : clausesOf pd strip n c.rest with
        | none => rfl
        | some p => simp [retained, hpk]
      · simp only [hr, hpk, if_false, ne_eq, not_false_eq_true, if_true]
        rw [ih]
        cases hc : clausesOf pd strip n c.rest with
        | none => rfl
        | some p => simp [retained, hpk]

/-- One round of the field loop, in terms of the clauses of the field. -/
theorem fieldLoop_cons (pd : DepParser) (fuel : Nat) (ArchOnly strip : Bool) (Sect : pkgTagSection)
    (I : Nat) (Is : List Nat) (acc : List BuildDepRec) :
    BuildDepends.fieldLoop pd fuel ArchOnly strip Sect (I :: Is) acc =
      match fieldClauses pd fuel ArchOnly strip Sect I with
      | none => none
      | some (cs, true) =>
        BuildDepends.fieldLoop pd fuel ArchOnly strip Sect Is (acc ++ retained I cs)
      | some (cs, false) => some ⟨false, [BuildDepends.message I], acc ++ retained I cs⟩ := by
  rw [BuildDepends.fieldLoop]
  unfold fieldClauses
  by_cases hs : (ArchOnly && (I == 1 || I == 3)) = true
  · simp [hs, retained]
  · simp only [hs, if_false]
    cases hf : Sect.Find (BuildDepends.fields I) with
    | none => simp [retained]
    | some text =>
      simp only [clauseLoop_eq]
      cases hc : clausesOf pd strip fuel text with
      | none => rfl
      | some p =>
        obtain ⟨cs, ok⟩ := p
        cases ok <;> simp

/-- Outcome of `BuildDepends` when the parser fails in field `I`. -/
theorem BuildDepends_of_failure (pd : DepParser) (fuel : Nat) (ArchOnly strip : Bool)
    (Sect : pkgTagSection) (I : Nat) (hI : I < 4) (f : Nat → List DepClause) (cs : List DepClause)
    (hbefore : ∀ J, J < I → fieldClauses pd fuel ArchOnly strip Sect J = some (f J, true))
    (hfail : fieldClauses pd fuel ArchOnly strip Sect I = some (cs, false)) :
    BuildDepends pd fuel ArchOnly strip Sect =
      some ⟨false, [BuildDepends.message I], retainedBefore f I ++ retained I cs⟩ := by
  unfold BuildDepends
  interval_cases I
  · rw [fieldLoop_cons, hfail]; simp [retainedBefore]
  · rw [fieldLoop_cons, hbefore 0 (by omega)]; simp only []
    rw [fieldLoop_cons, hfail]; simp [retainedBefore]
  · rw [fieldLoop_cons, hbefore 0 (by omega)]; simp only []
    rw [fieldLoop_cons, hbefore 1 (by omega)]; simp only []
    rw [fieldLoop_cons, hfail]; simp [retainedBefore]
  · rw [fieldLoop_cons, hbefore 0 (by omega)]; simp only []
    rw [fieldLoop_cons, hbefore 1 (by omega)]; simp only []
    rw [fieldLoop_cons, hbefore 2 (by omega)]; simp only []
    rw [fieldLoop_cons, hfail]; simp [retainedBefore]

/-- Outcome of `BuildDepends` when the parser gets through all fields read. -/
theorem BuildDepends_of_success (pd : DepParser) (fuel : Nat) (ArchOnly strip : Bool)
    (Sect : pkgTagSection) (c0 c1 c2 c3 : List DepClause)
    (h0 : fieldClauses pd fuel ArchOnly strip Sect 0 = some (c0, true))
    (h1 : fieldClauses pd fuel ArchOnly strip Sect 1 = some (c1, true))
    (h2 : fieldClauses pd fuel ArchOnly strip Sect 2 = some (c2, true))
    (h3 : fieldClauses pd fuel ArchOnly strip Sect 3 = some (c3, true)) :
    BuildDepends pd fuel ArchOnly strip Sect =
      some ⟨true, [], retained 0 c0 ++ retained 1 c1 ++ retained 2 c2 ++ retained 3 c3⟩ := by
  unfold BuildDepends
  rw [fieldLoop_cons, h0]; simp only []
  rw [fieldLoop_cons, h1]; simp only []
  rw [fieldLoop_cons, h2]; simp only []
  rw [fieldLoop_cons, h3]; simp only []
  simp [BuildDepends.fieldLoop]

/-- Every outcome of `BuildDepends` is one of the two above. -/
theorem BuildDepends_cases (pd : DepParser) (fuel : Nat) (ArchOnly strip : Bool)
    (Sect : pkgTagSection) (r : BuildDependsResult)
    (h : BuildDepends pd fuel ArchOnly strip Sect = some r) :
    (∃ c0 c1 c2 c3,
        fieldClauses pd fuel ArchOnly strip Sect 0 = some (c0, true) ∧
        fieldClauses pd fuel ArchOnly strip Sect 1 = some (c1, true) ∧
        fieldClauses pd fuel ArchOnly strip Sect 2 = some (c2, true) ∧
        fieldClauses pd fuel ArchOnly strip Sect 3 = some (c3, true) ∧
        r = ⟨true, [], retained 0 c0 ++ retained 1 c1 ++ retained 2 c2 ++ retained 3 c3⟩) ∨
    (∃ I, I < 4 ∧ ∃ (f : Nat → List DepClause) (cs : List DepClause),
        (∀ J, J < I → fieldClauses pd fuel ArchOnly strip Sect J = some (f J, true)) ∧
        fieldClauses pd fuel ArchOnly strip Sect I = some (cs, false) ∧
        r = ⟨false, [BuildDepends.message I], retainedBefore f I ++ retained I cs⟩) := by
  have key : ∀ (I : Nat) (f : Nat → List DepClause) (cs : List DepClause), I < 4 →
      (∀ J, J < I → fieldClauses pd fuel ArchOnly strip Sect J = some (f J, true)) →
      fieldClauses pd fuel ArchOnly strip Sect I = some (cs, false) →
      (∃ I, I < 4 ∧ ∃ (f : Nat → List DepClause) (cs : List DepClause),
        (∀ J, J < I → fieldClauses pd fuel ArchOnly strip Sect J = some (f J, true)) ∧
        fieldClauses pd fuel ArchOnly strip Sect I = some (cs, false) ∧
        r = ⟨false, [BuildDepends.message I], retainedBefore f I ++ retained I cs⟩) := by
    intro I f cs hI hb hf
    refine ⟨I, hI, f, cs, hb, hf, ?_⟩
    have := BuildDepends_of_failure pd fuel ArchOnly strip Sect I hI f cs hb hf
    rw [this] at h
    exact (Option.some.inj h).symm
  rcases h0 : fieldClauses pd fuel ArchOnly strip Sect 0 with _ | ⟨c0, _ | _⟩
  · simp [BuildDepends, fieldLoop_cons, h0] at h
  · exact Or.inr (key 0 (fun _ => []) c0 (by omega) (by intro J hJ; omega) h0)
  rcases h1 : fieldClauses pd fuel ArchOnly strip Sect 1 with _ | ⟨c1, _ | _⟩
  · simp [BuildDepends, fieldLoop_cons, h0, h1] at h
  · refine Or.inr (key 1 (fun J => c0) c1 (by omega) ?_ h1)
    intro J hJ
    have : J = 0 := by omega
    subst this; exact h0
  rcases h2 : fieldClauses pd fuel ArchOnly strip Sect 2 with _ | ⟨c2, _ | _⟩
  · simp [BuildDepends, fieldLoop_cons, h0, h1, h2] at h
  · refine Or.inr (key 2 (fun J => if J = 0 then c0 else c1) c2 (by omega) ?_ h2)
    intro J hJ
    have : J = 0 ∨ J = 1 := by omega
    rcases this with rfl | rfl
    · simpa using h0
    · simpa using h1
  rcases h3 : fieldClauses pd fuel ArchOnly strip Sect 3 with _ | ⟨c3, _ | _⟩
  · simp [BuildDepends, fieldLoop_cons, h0, h1, h2, h3] at h
  · refine Or.inr (key 3 (fun J => if J = 0 then c0 else if J = 1 then c1 else c2) c3 (by omega) ?_ h3)
    intro J hJ
    have : J = 0 ∨ J = 1 ∨ J = 2 := by omega
    rcases this with rfl | rfl | rfl
    · simpa using h0
    · simpa using h1
    · simpa using h2
  · refine Or.inl ⟨c0, c1, c2, c3, rfl, rfl, rfl, rfl, ?_⟩
    have := BuildDepends_of_success pd fuel ArchOnly strip Sect c0 c1 c2 c3 h0 h1 h2 h3
    rw [this] at h
    exact (Option.some.inj h).symm

/-- A kept tuple carries its field number and a non-empty package name. -/
theorem mem_retained {I : Nat} {cs : List DepClause} {t : BuildDepRec} (h : t ∈ retained I cs) :
    t.Type_ = I ∧ t.Package ≠ [] := by
  unfold retained at h
  rw [List.mem_map] at h
  obtain ⟨c, hc, rfl⟩ := h
  rw [List.mem_filter] at hc
  exact ⟨rfl, by simpa using hc.2⟩

/-- A tuple kept for the fields before `I` was kept for one of them. -/
theorem mem_retainedBefore {f : Nat → List DepClause} {t : BuildDepRec} :
    ∀ {I : Nat}, t ∈ retainedBefore f I → ∃ J, J < I ∧ t ∈ retained J (f J) := by
  intro I
  induction I with
  | zero => intro h; simp [retainedBefore] at h
  | succ n ih =>
    intro h
    simp only [retainedBefore, List.mem_append] at h
    rcases h with h | h
    · obtain ⟨J, hJ, hm⟩ := ih h
      exact ⟨J, by omega, hm⟩
    · exact ⟨n, by omega, h⟩

/-- The tuples kept for one field all have the same Type. -/
theorem pairwise_retained (I : Nat) (cs : List DepClause) :
    (retained I cs).Pairwise (fun a b => a.Type_ ≤ b.Type_) := by
  apply List.pairwise_of_forall_mem_list
  intro a ha b hb
  rw [(mem_retained ha).1, (mem_retained hb).1]

/-- The field loop depends on the record only through the clauses of the fields it visits. -/
theorem fieldLoop_congr (pd : DepParser) (fuel : Nat) (ArchOnly strip : Bool)
    (Sect Sect' : pkgTagSection) :
    ∀ (Is : List Nat),
      (∀ I, I ∈ Is → fieldClauses pd fuel ArchOnly strip Sect' I =
        fieldClauses pd fuel ArchOnly strip Sect I) →
      ∀ acc, BuildDepends.fieldLoop pd fuel ArchOnly strip Sect' Is acc =
        BuildDepends.fieldLoop pd fuel ArchOnly strip Sect Is acc := by
  intro Is
  induction Is with
  | nil => intro _ acc; simp [BuildDepends.fieldLoop]
  | cons I Is ih =>
    intro h acc
    rw [fieldLoop_cons, fieldLoop_cons, h I (List.mem_cons_self I Is)]
    rcases fieldClauses pd fuel ArchOnly strip Sect I with _ | ⟨cs, _ | _⟩
    · rfl
    · rfl
    · exact ih (fun J hJ => h J (List.mem_cons_of_mem I hJ)) _

/-- `BuildDepends` depends on the record only through the clauses of its four fields. -/
theorem BuildDepends_congr (pd : DepParser) (fuel : Nat) (ArchOnly strip : Bool)
    (Sect Sect' : pkgTagSection)
    (h : ∀ I, I < 4 → fieldClauses pd fuel ArchOnly strip Sect' I =
      fieldClauses pd fuel ArchOnly strip Sect I) :
    BuildDepends pd fuel ArchOnly strip Sect' = BuildDepends pd fuel ArchOnly strip Sect := by
  unfold BuildDepends
  apply fieldLoop_congr
  intro I hI
  apply h
  simp at hI
  omega

/-- C4: with `ArchOnly = true` every tuple `BuildDepends` puts into the output list has
Type 0 (Depends) or 2 (Conflicts), never 1 or 3, whatever the returned flag, and the
Build-Depends-Indep and Build-Conflicts-Indep fields are not read: a record that agrees
on the Build-Depends and Build-Conflicts fields gives the same outcome. -/
theorem BuildDepends_ArchOnly_skips_Indep (pd : DepParser) (fuel : Nat) (StripMultiArch : Bool)
    (Sect : pkgTagSection) (r : BuildDependsResult)
    (h : BuildDepends pd fuel true StripMultiArch Sect = some r) :
    (∀ t, t ∈ r.BuildDeps → (t.Type_ = 0 ∨ t.Type_ = 2) ∧ t.Type_ ≠ 1 ∧ t.Type_ ≠ 3) ∧
    (∀ Sect' : pkgTagSection,
      Sect'.Find "Build-Depends".toList = Sect.Find "Build-Depends".toList →
      Sect'.Find "Build-Conflicts".toList = Sect.Find "Build-Conflicts".toList →
      BuildDepends pd fuel true StripMultiArch Sect' = some r) := by
  have e1 : ∀ S : pkgTagSection, fieldClauses pd fuel true StripMultiArch S 1 = some ([], true) := by
    intro S; simp [fieldClauses]
  have e3 : ∀ S : pkgTagSection, fieldClauses pd fuel true StripMultiArch S 3 = some ([], true) := by
    intro S; simp [fieldClauses]
  constructor
  · have key : ∀ t, t ∈ r.BuildDeps → t.Type_ = 0 ∨ t.Type_ = 2 := by
      intro t ht
      rcases BuildDepends_cases pd fuel true StripMultiArch Sect r h with
        ⟨c0, c1, c2, c3, h0, h1, h2, h3, rfl⟩ | ⟨I, hI, f, cs, hb, hf, rfl⟩
      · rw [e1] at h1; rw [e3] at h3
        obtain rfl : c1 = [] := by simpa using h1.symm
        obtain rfl : c3 = [] := by simpa using h3.symm
        simp only [retained, List.filter_nil, List.map_nil, List.append_nil] at ht
        rw [List.mem_append] at ht
        rcases ht with ht | ht
        · exact Or.inl (mem_retained ht).1
        · exact Or.inr (mem_retained ht).1
      · simp only [List.mem_append] at ht
        have hI13 : I ≠ 1 ∧ I ≠ 3 := by
          constructor
          · rintro rfl; rw [e1] at hf; simp at hf
          · rintro rfl; rw [e3] at hf; simp at hf
        rcases ht with ht | ht
        · obtain ⟨J, hJ, hm⟩ := mem_retainedBefore ht
          have hJ13 : J ≠ 1 ∧ J ≠ 3 := by
            constructor
            · rintro rfl
              have := hb 1 hJ
              rw [e1] at this
              have hf1 : f 1 = [] := by simpa using this.symm
              rw [hf1] at hm; simp [retained] at hm
            · rintro rfl; omega
          have := (mem_retained hm).1
          omega
        · have := (mem_retained ht).1
          omega
    intro t ht
    have := key t ht
    omega
  · intro Sect' hd hc
    rw [← h]
    apply BuildDepends_congr
    intro I hI
    interval_cases I
    · simp only [fieldClauses, BuildDepends.fields]; rw [hd]
    · rw [e1, e1]
    · simp only [fieldClauses, BuildDepends.fields]; rw [hc]
    · rw [e3, e3]

/-- C5: every tuple in a list `BuildDepends` hands back has a non-empty Package; when the
dependency parser succeeds on every clause of every field read, the call succeeds with no
error and keeps exactly the clauses whose package name is not empty, so a clause with an
empty name is dropped without failing; and when the parser fails on a clause of field `I`
after the earlier fields were read, the call returns failure with the one error
"Problem parsing dependency: " followed by the name of field `I`. -/
theorem BuildDepends_drops_empty_package (pd : DepParser) (fuel : Nat)
    (ArchOnly StripMultiArch : Bool) (Sect : pkgTagSection) :
    (∀ r, BuildDepends pd fuel ArchOnly StripMultiArch Sect = some r →
      ∀ t, t ∈ r.BuildDeps → t.Package ≠ []) ∧
    (∀ c : Nat → List DepClause,
      (∀ I, I < 4 → fieldClauses pd fuel ArchOnly StripMultiArch Sect I = some (c I, true)) →
      ∃ r, BuildDepends pd fuel ArchOnly StripMultiArch Sect = some r ∧ r.ret = true ∧
        r.errors = [] ∧
        r.BuildDeps =
          ((c 0).filter (fun x => x.Package ≠ [])).map (fun x => ⟨x.Package, x.Version, x.Op, 0⟩) ++
          ((c 1).filter (fun x => x.Package ≠ [])).map (fun x => ⟨x.Package, x.Version, x.Op, 1⟩) ++
          ((c 2).filter (fun x => x.Package ≠ [])).map (fun x => ⟨x.Package, x.Version, x.Op, 2⟩) ++
          ((c 3).filter (fun x => x.Package ≠ [])).map (fun x => ⟨x.Package, x.Version, x.Op, 3⟩)) ∧
    (∀ (I : Nat) (f : Nat → List DepClause) (cs : List DepClause), I < 4 →
      (∀ J, J < I → fieldClauses pd fuel ArchOnly StripMultiArch Sect J = some (f J, true)) →
      fieldClauses pd fuel ArchOnly StripMultiArch Sect I = some (cs, false) →
      ∃ r, BuildDepends pd fuel ArchOnly StripMultiArch Sect = some r ∧ r.ret = false ∧
        r.errors = ["Problem parsing dependency: ".toList ++ BuildDepends.fields I]) := by
  refine ⟨?_, ?_, ?_⟩
  · intro r h t ht
    rcases BuildDepends_cases pd fuel ArchOnly StripMultiArch Sect r h with
      ⟨c0, c1, c2, c3, _, _, _, _, rfl⟩ | ⟨I, _, f, cs, _, _, rfl⟩
    · simp only [List.mem_append] at ht
      rcases ht with ((ht | ht) | ht) | ht <;> exact (mem_retained ht).2
    · simp only [List.mem_append] at ht
      rcases ht with ht | ht
      · obtain ⟨J, _, hm⟩ := mem_retainedBefore ht
        exact (mem_retained hm).2
      · exact (mem_retained ht).2
  · intro c hc
    refine ⟨_, BuildDepends_of_success pd fuel ArchOnly StripMultiArch Sect (c 0) (c 1) (c 2) (c 3)
      (hc 0 (by omega)) (hc 1 (by omega)) (hc 2 (by omega)) (hc 3 (by omega)), rfl, rfl, rfl⟩
  · intro I f cs hI hb hf
    exact ⟨_, BuildDepends_of_failure pd fuel ArchOnly StripMultiArch Sect I hI f cs hb hf,
      rfl, rfl⟩

/-- C8 (as the code behaves): when the dependency parser fails on a clause of field `I`
after the clauses `cs` of that field and after the fields before `I` were read in full,
`BuildDepends` returns failure, reports the one error "Problem parsing dependency: "
followed by the name of field `I`, and its output list holds the tuples kept before the
failure, in order; the list is not emptied. -/
theorem BuildDepends_failure_keeps_parsed (pd : DepParser) (fuel : Nat)
    (ArchOnly StripMultiArch : Bool) (Sect : pkgTagSection) (I : Nat)
    (f : Nat → List DepClause) (cs : List DepClause) (hI : I < 4)
    (hbefore : ∀ J, J < I →
      fieldClauses pd fuel ArchOnly StripMultiArch Sect J = some (f J, true))
    (hfail : fieldClauses pd fuel ArchOnly StripMultiArch Sect I = some (cs, false)) :
    BuildDepends pd fuel ArchOnly StripMultiArch Sect =
      some ⟨false, ["Problem parsing dependency: ".toList ++ BuildDepends.fields I],
        retainedBefore f I ++ retained I cs⟩ :=
  BuildDepends_of_failure pd fuel ArchOnly StripMultiArch Sect I hI f cs hbefore hfail

/-- C9: when `BuildDepends` succeeds, its list is the tuples kept for Build-Depends, then
for Build-Depends-Indep, then for Build-Conflicts, then for Build-Conflicts-Indep, each
group in the textual order of its field's clauses and tagged with the field's index (a
field that is absent or skipped gives no tuple); so the Type values never decrease along
the list. -/
theorem BuildDepends_field_then_clause_order (pd : DepParser) (fuel : Nat)
    (ArchOnly StripMultiArch : Bool) (Sect : pkgTagSection) (r : BuildDependsResult)
    (h : BuildDepends pd fuel ArchOnly StripMultiArch Sect = some r) (hok : r.ret = true) :
    ∃ c0 c1 c2 c3 : List DepClause,
      fieldClauses pd fuel ArchOnly StripMultiArch Sect 0 = some (c0, true) ∧
      fieldClauses pd fuel ArchOnly StripMultiArch Sect 1 = some (c1, true) ∧
      fieldClauses pd fuel ArchOnly StripMultiArch Sect 2 = some (c2, true) ∧
      fieldClauses pd fuel ArchOnly StripMultiArch Sect 3 = some (c3, true) ∧
      r.BuildDeps = retained 0 c0 ++ retained 1 c1 ++ retained 2 c2 ++ retained 3 c3 ∧
      r.BuildDeps.Pairwise (fun a b => a.Type_ ≤ b.Type_) := by
  rcases BuildDepends_cases pd fuel ArchOnly StripMultiArch Sect r h with
    ⟨c0, c1, c2, c3, h0, h1, h2, h3, rfl⟩ | ⟨I, _, f, cs, _, _, rfl⟩
  · refine ⟨c0, c1, c2, c3, h0, h1, h2, h3, rfl, ?_⟩
    simp only [List.pairwise_append, pairwise_retained, List.mem_append, true_and]
    refine ⟨⟨?_, ?_⟩, ?_⟩
    · intro a ha b hb
      rw [(mem_retained ha).1, (mem_retained hb).1]; omega
    · intro a ha b hb
      rw [(mem_retained hb).1]
      rcases ha with ha | ha <;> rw [(mem_retained ha).1] <;> omega
    · intro a ha b hb
      rw [(mem_retained hb).1]
      rcases ha with (ha | ha) | ha <;> rw [(mem_retained ha).1] <;> omega
  · simp at hok

/-! ## Facts about `Files` -/

/-- The triplet loop pushes, onto what the list held, the entries of the triplets read. -/
theorem tripletLoop_eq (pqw : WordParser) (compExts : List Str) (tf : Nat) (kind Base : Str) :
    ∀ (fuel : Nat) (C : Str) (acc : List File),
      Files.tripletLoop pqw compExts tf kind Base fuel C acc =
        match tripletsOf pqw fuel C with
        | none => none
        | some (ts, ok) =>
          match Files.entries compExts tf kind Base ts with
          | none => none
          | some Fs => some (ok, acc ++ Fs) := by
  intro fuel
  induction fuel with
  | zero => intro C acc; rfl
  | succ n ih =>
    intro C acc
    rw [Files.tripletLoop, tripletsOf]
    by_cases hC : C = []
    · simp [hC, Files.entries]
    simp only [hC, if_false]
    rcases h1 : pqw C with _ | ⟨RawHash, C1⟩
    · simp [Files.entries]
    simp only []
    rcases h2 : pqw C1 with _ | ⟨Size, C2⟩
    · simp [Files.entries]
    simp only []
    rcases h3 : pqw C2 with _ | ⟨Path, C3⟩
    · simp [Files.entries]
    simp only []
    rcases he : Files.entry compExts tf kind Base RawHash Size Path with _ | F
    · simp only []
      rcases tripletsOf pqw n C3 with _ | ⟨ts, ok⟩
      · rfl
      · simp [Files.entries, he]
    · simp only []
      rw [ih]
      rcases tripletsOf pqw n C3 with _ | ⟨ts, ok⟩
      · rfl
      · simp only [Files.entries, he]
        rcases Files.entries compExts tf kind Base ts with _ | Fs
        · rfl
        · simp

/-- Outcome of `Files` when row `i` is the first row whose field is not empty. -/
theorem Files_of_first (pqw : WordParser) (compExts : List Str) (fuel : Nat)
    (Sect : pkgTagSection) (i : Nat) (hi : i < 4)
    (hfirst : ∀ j, j < i → Sect.FindS (hashField j) = [])
    (hne : Sect.FindS (hashField i) ≠ []) :
    Files pqw compExts fuel Sect =
      match tripletsOf pqw fuel (c_str (Sect.FindS (hashField i))) with
      | none => none
      | some (ts, ok) =>
        match Files.entries compExts fuel (hashKind i) (Files.base Sect) ts with
        | none => none
        | some Fs =>
          some (if ok then ⟨decide (0 < Fs.length), [], Fs⟩
            else ⟨false, [Files.message (hashField i)], Fs⟩) := by
  have step : ∀ (row : Str × Str) (rows : List (Str × Str)), Sect.FindS row.1 ≠ [] →
      Files.fieldLoop pqw compExts fuel Sect (row :: rows) =
        match tripletsOf pqw fuel (c_str (Sect.FindS row.1)) with
        | none => none
        | some (ts, ok) =>
          match Files.entries compExts fuel row.2 (Files.base Sect) ts with
          | none => none
          | some Fs =>
            some (if ok then ⟨decide (0 < Fs.length), [], Fs⟩
              else ⟨false, [Files.message row.1], Fs⟩) := by
    intro row rows hrow
    rw [Files.fieldLoop]
    simp only [hrow, if_false, tripletLoop_eq]
    rcases tripletsOf pqw fuel (c_str (Sect.FindS row.1)) with _ | ⟨ts, ok⟩
    · rfl
    · simp only []
      rcases Files.entries compExts fuel row.2 (Files.base Sect) ts with _ | Fs
      · rfl
      · cases ok <;> simp
  have skip : ∀ (row : Str × Str) (rows : List (Str × Str)), Sect.FindS row.1 = [] →
      Files.fieldLoop pqw compExts fuel Sect (row :: rows) =
        Files.fieldLoop pqw compExts fuel Sect rows := by
    intro row rows hrow
    rw [Files.fieldLoop]
    simp [hrow]
  unfold Files SourceHashFields
  interval_cases i
  · rw [step ("Checksums-Sha512".toList, "SHA512".toList) _ hne]; rfl
  · rw [skip ("Checksums-Sha512".toList, "SHA512".toList) _ (hfirst 0 (by omega)),
      step ("Checksums-Sha256".toList, "SHA256".toList) _ hne]; rfl
  · rw [skip ("Checksums-Sha512".toList, "SHA512".toList) _ (hfirst 0 (by omega)),
      skip ("Checksums-Sha256".toList, "SHA256".toList) _ (hfirst 1 (by omega)),
      step ("Checksums-Sha1".toList, "SHA1".toList) _ hne]; rfl
  · rw [skip ("Checksums-Sha512".toList, "SHA512".toList) _ (hfirst 0 (by omega)),
      skip ("Checksums-Sha256".toList, "SHA256".toList) _ (hfirst 1 (by omega)),
      skip ("Checksums-Sha1".toList, "SHA1".toList) _ (hfirst 2 (by omega)),
      step ("Files".toList, "MD5Sum".toList) _ hne]; rfl

/-- The directory prefix depends on the record only through the Directory field. -/
theorem base_eq (Sect Sect' : pkgTagSection)
    (h : Sect'.FindS "Directory".toList = Sect.FindS "Directory".toList) :
    Files.base Sect' = Files.base Sect := by
  unfold Files.base
  rw [h]

/-- What each entry holds, triplet by triplet. -/
theorem entries_spec (compExts : List Str) (fuel : Nat) (kind Base : Str) :
    ∀ (ts : List Triplet) (Fs : List File), Files.entries compExts fuel kind Base ts = some Fs →
      List.Forall₂ (fun (F : File) (t : Triplet) =>
        F.Path = Base ++ t.Path ∧ F.Hash = ⟨kind, t.RawHash⟩ ∧
        F.Size = sizeOfInt (atoi t.Size) ∧
        Files.typeOf compExts fuel (Base ++ t.Path) = some F.Type_) Fs ts := by
  intro ts
  induction ts with
  | nil =>
    intro Fs h
    simp [Files.entries] at h
    subst h
    exact List.Forall₂.nil
  | cons t ts ih =>
    intro Fs h
    rw [Files.entries] at h
    rcases he : Files.entry compExts fuel kind Base t.RawHash t.Size t.Path with _ | F
    · simp [he] at h
    rcases hr : Files.entries compExts fuel kind Base ts with _ | Fs'
    · simp [he, hr] at h
    simp only [he, hr, Option.some.injEq] at h
    subst h
    refine List.Forall₂.cons ?_ (ih Fs' hr)
    unfold Files.entry at he
    rcases ht : Files.typeOf compExts fuel (Base ++ t.Path) with _ | T
    · simp [ht] at he
    · simp only [ht, Option.some.injEq] at he
      subst he
      exact ⟨rfl, rfl, rfl, rfl⟩

/-- No position is found when the character does not occur up to `pos`. -/
theorem rfindIdx_none_of_not_mem (c : Char) :
    ∀ (s : Str) (pos : Nat), c ∉ s.take (pos + 1) → rfindIdx c s pos = none := by
  intro s
  induction s with
  | nil => intro pos _; rfl
  | cons x xs ih =>
    intro pos h
    have hx : x ≠ c := by
      intro hxc
      apply h
      simp [List.take, hxc]
    cases pos with
    | zero => simp [rfindIdx, hx]
    | succ p =>
      have hxs : c ∉ xs.take (p + 1) := by
        intro hm
        apply h
        simp only [List.take_succ_cons, List.mem_cons]
        exact Or.inr hm
      simp [rfindIdx, ih p hxs, hx]

/-- The position found is that of an occurrence with none after it up to `pos`. -/
theorem rfindIdx_append (c : Char) (B : Str) (k : Nat) (hk : c ∉ B.take k) :
    ∀ (A : Str), rfindIdx c (A ++ c :: B) (A.length + k) = some A.length := by
  intro A
  induction A with
  | nil =>
    cases k with
    | zero => simp [rfindIdx]
    | succ p => simp [rfindIdx, rfindIdx_none_of_not_mem c B p hk]
  | cons a A ih =>
    have : (a :: A).length + k = (A.length + k) + 1 := by simp; omega
    rw [this]
    simp [rfindIdx, ih]

/-- Subtracting one from a positive `size_type` value does not wrap. -/
theorem wrap_pred (n : Nat) (h0 : 0 < n) (h : n < SIZE_T) : (n + SIZE_T - 1) % SIZE_T = n - 1 := by
  unfold SIZE_T at *
  omega

/-- One round of the type loop, for a path split at the dot the round finds. -/
theorem guessType_step (compExts : List Str) (A B : Str) (k fuel : Nat) (Type_ : Str)
    (hk : '.' ∉ B.take k) (hlen : (A ++ '.' :: B).length < SIZE_T)
    (hpos : A.length + k < SIZE_T) :
    Files.guessType compExts (A ++ '.' :: B) (fuel + 1) (A.length + k) Type_ =
      if Type_ = "tar".toList then
        (if B.take k = "debian".toList then some "diff".toList else some Type_)
      else if ('.' :: B.take k) ∈ compExts ∨ B.take k = "tar".toList then
        Files.guessType compExts (A ++ '.' :: B) fuel ((A.length + SIZE_T - 1) % SIZE_T)
          (B.take k)
      else some (B.take k) := by
  rw [Files.guessType]
  have hr : rfind (A ++ '.' :: B) '.' (A.length + k) = A.length := by
    simp [rfind, rfindIdx_append '.' B k hk A]
  have hA : A.length + 1 < SIZE_T := by
    simp only [List.length_append, List.length_cons] at hlen
    omega
  have hn : A.length ≠ npos := by
    unfold npos; omega
  have h1 : (A.length + 1) % SIZE_T = A.length + 1 := Nat.mod_eq_of_lt hA
  have h2 : (A.length + k + SIZE_T - A.length) % SIZE_T = k := by
    unfold SIZE_T at *
    omega
  have hs : substr (A ++ '.' :: B) (A.length + 1) k = B.take k := by
    unfold substr
    have hd : List.drop (A.length + 1) A = [] := List.drop_eq_nil_of_le (by omega)
    rw [List.drop_append_eq_append_drop]
    simp [hd]
  simp only [hr, hn, if_false, h1, h2, hs]

/-- C3: for a path `P ++ ".debian.tar." ++ E` where `"." ++ E` is a known compression
extension, `E` has no dot and `E` is not "tar", the type loop of `Files` ends (within
three rounds) with the type "diff". -/
theorem Files_type_of_debian_tar (compExts : List Str) (P E : Str) (n : Nat)
    (hext : ('.' :: E) ∈ compExts) (hdot : '.' ∉ E) (htar : E ≠ "tar".toList)
    (hlen : (P ++ ".debian.tar.".toList ++ E).length < SIZE_T) :
    Files.typeOf compExts (n + 3) (P ++ ".debian.tar.".toList ++ E) = some "diff".toList := by
  have e1 : P ++ ".debian.tar.".toList ++ E =
      (P ++ ['.', 'd', 'e', 'b', 'i', 'a', 'n', '.', 't', 'a', 'r']) ++ '.' :: E := by simp
  have e2 : (P ++ ['.', 'd', 'e', 'b', 'i', 'a', 'n', '.', 't', 'a', 'r']) ++ '.' :: E =
      (P ++ ['.', 'd', 'e', 'b', 'i', 'a', 'n']) ++ '.' :: ('t' :: 'a' :: 'r' :: '.' :: E) := by simp
  have e3 : (P ++ ['.', 'd', 'e', 'b', 'i', 'a', 'n']) ++ '.' :: ('t' :: 'a' :: 'r' :: '.' :: E) =
      P ++ '.' :: ('d' :: 'e' :: 'b' :: 'i' :: 'a' :: 'n' :: '.' :: 't' :: 'a' :: 'r' :: '.' :: E) := by
    simp
  have hl : P.length + 12 + E.length < SIZE_T := by
    simp only [List.length_append] at hlen
    have : ".debian.tar.".toList.length = 12 := by decide
    omega
  unfold Files.typeOf
  rw [e1] at hlen ⊢
  -- first round: the extension `E`
  have p1 : ((P ++ ['.', 'd', 'e', 'b', 'i', 'a', 'n', '.', 't', 'a', 'r']) ++ '.' :: E).length
      + SIZE_T - 1 =
      (P ++ ['.', 'd', 'e', 'b', 'i', 'a', 'n', '.', 't', 'a', 'r']).length + E.length + SIZE_T := by
    simp only [List.length_append, List.length_cons, List.length_nil]
    omega
  rw [p1, Nat.add_mod_right, Nat.mod_eq_of_lt (by simp only [List.length_append, List.length_cons, List.length_nil]; omega),
    guessType_step compExts _ E E.length (n + 2) [] (by simpa using hdot) hlen
      (by simp only [List.length_append, List.length_cons, List.length_nil]; omega)]
  have t0 : ¬ (([] : Str) = "tar".toList) := by decide
  simp only [t0, if_false, List.take_length, hext, true_or, if_true]
  -- second round: "tar"
  have p2 : ((P ++ ['.', 'd', 'e', 'b', 'i', 'a', 'n', '.', 't', 'a', 'r']).length + SIZE_T - 1) % SIZE_T =
      (P ++ ['.', 'd', 'e', 'b', 'i', 'a', 'n']).length + 3 := by
    rw [wrap_pred _ (by simp) (by simp only [List.length_append, List.length_cons, List.length_nil]; omega)]
    simp only [List.length_append, List.length_cons, List.length_nil]
    omega
  rw [p2]
  rw [e2] at hlen ⊢
  rw [guessType_step compExts _ _ 3 (n + 1) E (by simp) hlen
      (by simp only [List.length_append, List.length_cons, List.length_nil]; omega)]
  have t1 : List.take 3 ('t' :: 'a' :: 'r' :: '.' :: E) = "tar".toList := by simp
  simp only [htar, if_false, t1, or_true, if_true]
  -- third round: "debian" before "tar"
  have p3 : ((P ++ ['.', 'd', 'e', 'b', 'i', 'a', 'n']).length + SIZE_T - 1) % SIZE_T =
      P.length + 6 := by
    rw [wrap_pred _ (by simp) (by simp only [List.length_append, List.length_cons, List.length_nil]; omega)]
    simp only [List.length_append, List.length_cons, List.length_nil]
    omega
  rw [p3]
  rw [e3] at hlen ⊢
  rw [guessType_step compExts P _ 6 n "tar".toList (by simp) hlen (by omega)]
  simp

/-- The type loop on a path ending in "foo_1.0.orig.tar.gz". -/
theorem typeOf_orig_tar_gz (compExts : List Str) (Base : Str) (n : Nat)
    (hgz : ".gz".toList ∈ compExts)
    (hlen : (Base ++ "foo_1.0.orig.tar.gz".toList).length < SIZE_T) :
    Files.typeOf compExts (n + 3) (Base ++ "foo_1.0.orig.tar.gz".toList) = some "tar".toList := by
  have e1 : Base ++ "foo_1.0.orig.tar.gz".toList =
      (Base ++ ['f', 'o', 'o', '_', '1', '.', '0', '.', 'o', 'r', 'i', 'g', '.', 't', 'a', 'r']) ++
        '.' :: ['g', 'z'] := by simp
  have e2 : (Base ++ ['f', 'o', 'o', '_', '1', '.', '0', '.', 'o', 'r', 'i', 'g', '.', 't', 'a', 'r']) ++
        '.' :: ['g', 'z'] =
      (Base ++ ['f', 'o', 'o', '_', '1', '.', '0', '.', 'o', 'r', 'i', 'g']) ++
        '.' :: ['t', 'a', 'r', '.', 'g', 'z'] := by simp
  have e3 : (Base ++ ['f', 'o', 'o', '_', '1', '.', '0', '.', 'o', 'r', 'i', 'g']) ++
        '.' :: ['t', 'a', 'r', '.', 'g', 'z'] =
      (Base ++ ['f', 'o', 'o', '_', '1', '.', '0']) ++
        '.' :: ['o', 'r', 'i', 'g', '.', 't', 'a', 'r', '.', 'g', 'z'] := by simp
  have hl : Base.length + 19 < SIZE_T := by
    simp only [List.length_append] at hlen
    have : "foo_1.0.orig.tar.gz".toList.length = 19 := by decide
    omega
  have hgz' : '.' :: ['g', 'z'] ∈ compExts := by simpa using hgz
  unfold Files.typeOf
  rw [e1] at hlen ⊢
  have p1 : ((Base ++ ['f', 'o', 'o', '_', '1', '.', '0', '.', 'o', 'r', 'i', 'g', '.', 't', 'a', 'r']) ++
        '.' :: ['g', 'z']).length + SIZE_T - 1 =
      (Base ++ ['f', 'o', 'o', '_', '1', '.', '0', '.', 'o', 'r', 'i', 'g', '.', 't', 'a', 'r']).length
        + 2 + SIZE_T := by
    simp only [List.length_append, List.length_cons, List.length_nil]
    omega
  rw [p1, Nat.add_mod_right,
    Nat.mod_eq_of_lt (by simp only [List.length_append, List.length_cons, List.length_nil]; omega),
    guessType_step compExts _ ['g', 'z'] 2 (n + 2) [] (by simp) hlen
      (by simp only [List.length_append, List.length_cons, List.length_nil]; omega)]
  have t0 : ¬ (([] : Str) = "tar".toList) := by decide
  have t1 : List.take 2 ['g', 'z'] = ['g', 'z'] := rfl
  simp only [t0, if_false, t1, hgz', true_or, if_true]
  have p2 : ((Base ++ ['f', 'o', 'o', '_', '1', '.', '0', '.', 'o', 'r', 'i', 'g', '.', 't', 'a', 'r']).length
        + SIZE_T - 1) % SIZE_T =
      (Base ++ ['f', 'o', 'o', '_', '1', '.', '0', '.', 'o', 'r', 'i', 'g']).length + 3 := by
    rw [wrap_pred _ (by simp)
      (by simp only [List.length_append, List.length_cons, List.length_nil]; omega)]
    simp only [List.length_append, List.length_cons, List.length_nil]
    omega
  rw [p2]
  rw [e2] at hlen ⊢
  rw [guessType_step compExts _ _ 3 (n + 1) ['g', 'z'] (by simp) hlen
      (by simp only [List.length_append, List.length_cons, List.length_nil]; omega)]
  have t2 : ¬ (['g', 'z'] = "tar".toList) := by decide
  have t3 : List.take 3 ['t', 'a', 'r', '.', 'g', 'z'] = "tar".toList := by decide
  simp only [t2, if_false, t3, or_true, if_true]
  have p3 : ((Base ++ ['f', 'o', 'o', '_', '1', '.', '0', '.', 'o', 'r', 'i', 'g']).length
        + SIZE_T - 1) % SIZE_T =
      (Base ++ ['f', 'o', 'o', '_', '1', '.', '0']).length + 4 := by
    rw [wrap_pred _ (by simp)
      (by simp only [List.length_append, List.length_cons, List.length_nil]; omega)]
    simp only [List.length_append, List.length_cons, List.length_nil]
    omega
  rw [p3]
  rw [e3] at hlen ⊢
  rw [guessType_step compExts _ _ 4 n "tar".toList (by simp) hlen
      (by simp only [List.length_append, List.length_cons, List.length_nil]; omega)]
  have t4 : ¬ (List.take 4 ['o', 'r', 'i', 'g', '.', 't', 'a', 'r', '.', 'g', 'z'] = "debian".toList) := by
    decide
  simp only [t4, if_true, if_false]

/-- C2 (as the code behaves): for a record without Checksums-Sha512 content whose
Checksums-Sha256 field is tokenized into the three words `h`, "1234" and
"foo_1.0.orig.tar.gz" and nothing more, with ".gz" a known compression extension,
`Files` succeeds without error and yields exactly one entry: Size 1234, Path the
directory prefix followed by "foo_1.0.orig.tar.gz", Hash of kind SHA256 with value `h`,
and Type "tar" (the loop strips ".gz" and stops at the archive suffix). -/
theorem Files_single_sha256_triplet (pqw : WordParser) (compExts : List Str) (n : Nat)
    (Sect : pkgTagSection) (h C1 C2 : Str)
    (h512 : Sect.FindS "Checksums-Sha512".toList = [])
    (hC : c_str (Sect.FindS "Checksums-Sha256".toList) ≠ [])
    (w1 : pqw (c_str (Sect.FindS "Checksums-Sha256".toList)) = some (h, C1))
    (w2 : pqw C1 = some ("1234".toList, C2))
    (w3 : pqw C2 = some ("foo_1.0.orig.tar.gz".toList, []))
    (hgz : ".gz".toList ∈ compExts)
    (hlen : (Files.base Sect ++ "foo_1.0.orig.tar.gz".toList).length < SIZE_T) :
    Files pqw compExts (n + 3) Sect =
      some ⟨true, [],
        [⟨[], 1234, Files.base Sect ++ "foo_1.0.orig.tar.gz".toList, "tar".toList,
          ⟨"SHA256".toList, h⟩⟩]⟩ ∧
    "foo_1.0.orig.tar.gz".toList <:+ Files.base Sect ++ "foo_1.0.orig.tar.gz".toList := by
  refine ⟨?_, List.suffix_append _ _⟩
  have hne : Sect.FindS (hashField 1) ≠ [] := by
    intro h0
    apply hC
    have : Sect.FindS "Checksums-Sha256".toList = [] := h0
    rw [this]; rfl
  have hfirst : ∀ j, j < 1 → Sect.FindS (hashField j) = [] := by
    intro j hj
    have : j = 0 := by omega
    subst this
    exact h512
  rw [Files_of_first pqw compExts (n + 3) Sect 1 (by omega) hfirst hne]
  have ht : tripletsOf pqw (n + 3) (c_str (Sect.FindS (hashField 1))) =
      some ([⟨h, "1234".toList, "foo_1.0.orig.tar.gz".toList⟩], true) := by
    have hC' : c_str (Sect.FindS (hashField 1)) ≠ [] := hC
    have w1' : pqw (c_str (Sect.FindS (hashField 1))) = some (h, C1) := w1
    rw [tripletsOf]
    simp only [hC', if_false, w1', w2, w3]
    rw [tripletsOf]
    simp
  have hk : hashKind 1 = "SHA256".toList := by decide
  have hs : sizeOfInt (atoi "1234".toList) = 1234 := by decide
  have hmd : ¬ ("SHA256".toList = "MD5Sum".toList) := by decide
  rw [ht]
  simp only [Files.entries, Files.entry, typeOf_orig_tar_gz compExts (Files.base Sect) n hgz hlen,
    hk, hs, hmd, if_false]
  simp

/-- Each member of the left list of a pointwise relation has a partner in the right list. -/
theorem forall2_mem_left {α β : Type} {R : α → β → Prop} {l1 : List α} {l2 : List β}
    (h : List.Forall₂ R l1 l2) : ∀ a, a ∈ l1 → ∃ b, b ∈ l2 ∧ R a b := by
  induction h with
  | nil => intro a ha; simp at ha
  | cons hab _ ih =>
    intro a ha
    rcases List.mem_cons.mp ha with rfl | ha
    · exact ⟨_, List.mem_cons_self _ _, hab⟩
    · obtain ⟨b, hb, hr⟩ := ih a ha
      exact ⟨b, List.mem_cons_of_mem _ hb, hr⟩

/-- The list `Files` hands back holds the entries of the triplets of the selected field. -/
theorem Files_cases (pqw : WordParser) (compExts : List Str) (fuel : Nat)
    (Sect : pkgTagSection) (i : Nat) (hi : i < 4)
    (hfirst : ∀ j, j < i → Sect.FindS (hashField j) = [])
    (hne : Sect.FindS (hashField i) ≠ []) (r : FilesResult)
    (h : Files pqw compExts fuel Sect = some r) :
    ∃ ts ok, tripletsOf pqw fuel (c_str (Sect.FindS (hashField i))) = some (ts, ok) ∧
      Files.entries compExts fuel (hashKind i) (Files.base Sect) ts = some r.List := by
  rw [Files_of_first pqw compExts fuel Sect i hi hfirst hne] at h
  rcases ht : tripletsOf pqw fuel (c_str (Sect.FindS (hashField i))) with _ | ⟨ts, ok⟩
  · simp [ht] at h
  rcases he : Files.entries compExts fuel (hashKind i) (Files.base Sect) ts with _ | Fs
  · simp [ht, he] at h
  simp only [ht, he, Option.some.injEq] at h
  refine ⟨ts, ok, rfl, ?_⟩
  subst h
  cases ok <;> simpa using he

/-- C1: let row `i` be the first row of the table Checksums-Sha512/SHA512,
Checksums-Sha256/SHA256, Checksums-Sha1/SHA1, Files/MD5Sum whose field is not empty in the
record.  Then every entry `Files` puts into its list carries the hash kind of row `i`,
the list is built from the triplets of that field alone, and no later field is read: a
record that agrees on the Directory field and on the fields of the rows up to `i` gives
the same outcome. -/
theorem Files_uses_first_nonempty_hash_field (pqw : WordParser) (compExts : List Str)
    (fuel : Nat) (Sect : pkgTagSection) (i : Nat) (hi : i < 4)
    (hfirst : ∀ j, j < i → Sect.FindS (hashField j) = [])
    (hne : Sect.FindS (hashField i) ≠ []) :
    [(hashField 0, hashKind 0), (hashField 1, hashKind 1), (hashField 2, hashKind 2),
        (hashField 3, hashKind 3)] =
      [("Checksums-Sha512".toList, "SHA512".toList), ("Checksums-Sha256".toList, "SHA256".toList),
        ("Checksums-Sha1".toList, "SHA1".toList), ("Files".toList, "MD5Sum".toList)] ∧
    (∀ r, Files pqw compExts fuel Sect = some r →
      (∀ F, F ∈ r.List → F.Hash.Type_ = hashKind i) ∧
      ∃ ts ok, tripletsOf pqw fuel (c_str (Sect.FindS (hashField i))) = some (ts, ok) ∧
        Files.entries compExts fuel (hashKind i) (Files.base Sect) ts = some r.List) ∧
    (∀ Sect' : pkgTagSection,
      Sect'.FindS "Directory".toList = Sect.FindS "Directory".toList →
      (∀ j, j ≤ i → Sect'.FindS (hashField j) = Sect.FindS (hashField j)) →
      Files pqw compExts fuel Sect' = Files pqw compExts fuel Sect) := by
  refine ⟨by decide, ?_, ?_⟩
  · intro r h
    obtain ⟨ts, ok, ht, he⟩ := Files_cases pqw compExts fuel Sect i hi hfirst hne r h
    refine ⟨?_, ts, ok, ht, he⟩
    intro F hF
    obtain ⟨t, _, hR⟩ := forall2_mem_left (entries_spec compExts fuel _ _ ts r.List he) F hF
    rw [hR.2.1]
  · intro Sect' hD hsame
    have hfirst' : ∀ j, j < i → Sect'.FindS (hashField j) = [] := by
      intro j hj
      rw [hsame j (by omega)]
      exact hfirst j hj
    have hne' : Sect'.FindS (hashField i) ≠ [] := by
      rw [hsame i (Nat.le_refl i)]
      exact hne
    rw [Files_of_first pqw compExts fuel Sect i hi hfirst hne,
      Files_of_first pqw compExts fuel Sect' i hi hfirst' hne', hsame i (Nat.le_refl i),
      base_eq Sect Sect' hD]

/-- C7 (as the code behaves): when the selected hash field (row `i`, the first non-empty
one) holds the well-formed triplets `ts` followed by a malformed one, and `Fs` are the
entries built for `ts`, then `Files` returns failure, reports the one error
"Error parsing '<field>' record" with the name of that field, and its output list holds
the entries `Fs` built before the malformed triplet; the list is not emptied. -/
theorem Files_failure_keeps_parsed (pqw : WordParser) (compExts : List Str) (fuel : Nat)
    (Sect : pkgTagSection) (i : Nat) (ts : List Triplet) (Fs : List File) (hi : i < 4)
    (hfirst : ∀ j, j < i → Sect.FindS (hashField j) = [])
    (hne : Sect.FindS (hashField i) ≠ [])
    (hscan : tripletsOf pqw fuel (c_str (Sect.FindS (hashField i))) = some (ts, false))
    (hent : Files.entries compExts fuel (hashKind i) (Files.base Sect) ts = some Fs) :
    Files pqw compExts fuel Sect =
      some ⟨false, ["Error parsing '".toList ++ hashField i ++ "' record".toList], Fs⟩ ∧
    Fs.length = ts.length := by
  constructor
  · rw [Files_of_first pqw compExts fuel Sect i hi hfirst hne, hscan]
    simp only [hent]
    rfl
  · exact (entries_spec compExts fuel _ _ ts Fs hent).length_eq

/-- C10: every entry of the list `Files` hands back comes from a triplet of the selected
hash field (row `i`), in order, and with `N` the file-name word of that triplet and `D`
the record's Directory value the entry's Path is `N` when `D` is empty, `D ++ N` when `D`
ends with `/`, and `D ++ "/" ++ N` otherwise; in each case the Path ends with `N`. -/
theorem Files_Path_is_Directory_then_name (pqw : WordParser) (compExts : List Str)
    (fuel : Nat) (Sect : pkgTagSection) (i : Nat) (r : FilesResult) (hi : i < 4)
    (hfirst : ∀ j, j < i → Sect.FindS (hashField j) = [])
    (hne : Sect.FindS (hashField i) ≠ [])
    (h : Files pqw compExts fuel Sect = some r) :
    ∃ ts ok, tripletsOf pqw fuel (c_str (Sect.FindS (hashField i))) = some (ts, ok) ∧
      List.Forall₂ (fun (F : File) (t : Triplet) =>
        (Sect.FindS "Directory".toList = [] → F.Path = t.Path) ∧
        (Sect.FindS "Directory".toList ≠ [] →
          (Sect.FindS "Directory".toList).getLast? = some '/' →
          F.Path = Sect.FindS "Directory".toList ++ t.Path) ∧
        (Sect.FindS "Directory".toList ≠ [] →
          (Sect.FindS "Directory".toList).getLast? ≠ some '/' →
          F.Path = Sect.FindS "Directory".toList ++ '/' :: t.Path) ∧
        t.Path <:+ F.Path) r.List ts := by
  obtain ⟨ts, ok, ht, he⟩ := Files_cases pqw compExts fuel Sect i hi hfirst hne r h
  refine ⟨ts, ok, ht, ?_⟩
  refine List.Forall₂.imp ?_ (entries_spec compExts fuel _ _ ts r.List he)
  intro F t hR
  have hp := hR.1
  refine ⟨?_, ?_, ?_, ?_⟩
  · intro hD
    have hb : Files.base Sect = [] := by
      unfold Files.base
      simp only [hD]
      simp
    rw [hp, hb]
    rfl
  · intro hD hl
    have hb : Files.base Sect = Sect.FindS "Directory".toList := by
      unfold Files.base
      simp only [hl]
      simp
    rw [hp, hb]
  · intro hD hl
    have hb : Files.base Sect = Sect.FindS "Directory".toList ++ ['/'] := by
      unfold Files.base
      simp only []
      rw [if_pos ⟨hD, hl⟩]
    rw [hp, hb]
    simp
  · rw [hp]
    exact List.suffix_append _ _

/-! ## Enough fuel -/

/-- When every successful call of the parser consumes text, reading a field needs at most
as many rounds as the field has characters, plus one. -/
theorem clausesOf_isSome (pd : DepParser) (strip : Bool)
    (hprog : ∀ t c, pd t strip = some c → c.rest = [] ∨ c.rest.length < t.length) :
    ∀ (fuel : Nat) (text : Str), text.length < fuel → (clausesOf pd strip fuel text).isSome := by
  intro fuel
  induction fuel with
  | zero => intro text h; omega
  | succ n ih =>
    intro text h
    rw [clausesOf]
    rcases hp : pd text strip with _ | c
    · rfl
    · simp only []
      by_cases hr : c.rest = []
      · simp [hr]
      · simp only [hr, if_false]
        have hlt : c.rest.length < text.length := by
          rcases hprog text c hp with h0 | h0
          · exact absurd h0 hr
          · exact h0
        have := ih c.rest (by omega)
        rcases hc : clausesOf pd strip n c.rest with _ | ⟨cs, ok⟩
        · rw [hc] at this; simp at this
        · rfl

/-- When the tokenizer never moves back and consumes text on non-empty input, reading a
field needs at most as many rounds as the field has characters, plus one. -/
theorem tripletsOf_isSome (pqw : WordParser)
    (hprog : ∀ C w C1, pqw C = some (w, C1) → C1.length ≤ C.length)
    (hstrict : ∀ C w C1, C ≠ [] → pqw C = some (w, C1) → C1.length < C.length) :
    ∀ (fuel : Nat) (C : Str), C.length < fuel → (tripletsOf pqw fuel C).isSome := by
  intro fuel
  induction fuel with
  | zero => intro C h; omega
  | succ n ih =>
    intro C h
    rw [tripletsOf]
    by_cases hC : C = []
    · simp [hC]
    simp only [hC, if_false]
    rcases h1 : pqw C with _ | ⟨RawHash, C1⟩
    · rfl
    simp only []
    rcases h2 : pqw C1 with _ | ⟨Size, C2⟩
    · rfl
    simp only []
    rcases h3 : pqw C2 with _ | ⟨Path, C3⟩
    · rfl
    simp only []
    have l1 := hstrict C RawHash C1 hC h1
    have l2 := hprog C1 Size C2 h2
    have l3 := hprog C2 Path C3 h3
    have := ih C3 (by omega)
    rcases hc : tripletsOf pqw n C3 with _ | ⟨ts, ok⟩
    · rw [hc] at this; simp at this
    · rfl

/-- A position found is in range, not after `pos`, and holds the character. -/
theorem rfindIdx_some (c : Char) :
    ∀ (s : Str) (pos i : Nat), rfindIdx c s pos = some i →
      i ≤ pos ∧ i < s.length ∧ s.get? i = some c := by
  intro s
  induction s with
  | nil => intro pos i h; simp [rfindIdx] at h
  | cons x xs ih =>
    intro pos i h
    cases pos with
    | zero =>
      by_cases hx : x = c
      · simp [rfindIdx, hx] at h
        subst h
        simp [hx]
      · simp [rfindIdx, hx] at h
    | succ p =>
      rw [rfindIdx] at h
      rcases hr : rfindIdx c xs p with _ | j
      · by_cases hx : x = c
        · simp [hr, hx] at h
          subst h
          simp [hx]
        · simp [hr, hx] at h
      · simp [hr] at h
        subst h
        obtain ⟨h1, h2, h3⟩ := ih p j hr
        refine ⟨by omega, by simp; omega, by simpa using h3⟩

/-- For a path that does not start with a dot the type loop leaves within
`min (Pos + 1) Path.length + 1` rounds. -/
theorem guessType_isSome (compExts : List Str) (Path : Str) (hhead : Path.head? ≠ some '.')
    (hlen : Path.length < SIZE_T) :
    ∀ (fuel Pos : Nat) (Type_ : Str), min (Pos + 1) Path.length < fuel →
      (Files.guessType compExts Path fuel Pos Type_).isSome := by
  intro fuel
  induction fuel with
  | zero => intro Pos Type_ h; omega
  | succ n ih =>
    intro Pos Type_ h
    rw [Files.guessType]
    simp only []
    rcases hr : rfindIdx '.' Path Pos with _ | i
    · simp [rfind, hr]
    · obtain ⟨h1, h2, h3⟩ := rfindIdx_some '.' Path Pos i hr
      have hi0 : i ≠ 0 := by
        rintro rfl
        apply hhead
        cases Path with
        | nil => simp at h2
        | cons x xs => simpa using h3
      have hrf : rfind Path '.' Pos = i := by simp [rfind, hr]
      have hn : i ≠ npos := by unfold npos; omega
      rw [hrf]
      simp only [hn, if_false]
      by_cases ht : Type_ = "tar".toList
      · simp only [ht, if_true]
        split <;> rfl
      · simp only [ht, if_false]
        split
        · apply ih
          rw [wrap_pred i (by omega) (by omega)]
          omega
        · rfl

/-- For a path that does not start with a dot the type loop ends. -/
theorem typeOf_isSome (compExts : List Str) (Path : Str) (fuel : Nat)
    (hhead : Path.head? ≠ some '.') (hlen : Path.length < SIZE_T) (hfuel : Path.length < fuel) :
    (Files.typeOf compExts fuel Path).isSome := by
  unfold Files.typeOf
  apply guessType_isSome compExts Path hhead hlen
  omega

/-! ## The claims at concrete records -/

/-- C6: on the Binary field " a, b ,c" the loop of `Binaries` meets the white space before
the second comma, assigns the null pointer to `binEnd` instead of writing a terminator
through it, and dereferences it: the call has no defined result, where the names "a",
"b", "c" were to be returned; without that white space the three names come back. -/
theorem Binaries_space_before_comma_undefined :
    Binaries (mkSection [("Binary".toList, " a, b ,c".toList)]) = some BinariesResult.undefined ∧
    Binaries (mkSection [("Binary".toList, " a, b,c".toList)]) =
      some (BinariesResult.list [some "a".toList, some "b".toList, some "c".toList, none]) := by
  decide

/-- C1 at a record with a Directory, a Checksums-Sha256 field and a Files field: the one entry
comes from Checksums-Sha256 and is tagged SHA256. -/
theorem Files_uses_first_nonempty_hash_field_witness :
    Files ParseQuoteWord [".gz".toList] 3 recordTwoHashFields =
      some ⟨true, [], [⟨[], 10, "pool/f/f_1.dsc".toList, "dsc".toList,
        ⟨"SHA256".toList, "cc".toList⟩⟩]⟩ ∧
    ∀ F, F ∈ [(⟨[], 10, "pool/f/f_1.dsc".toList, "dsc".toList,
        ⟨"SHA256".toList, "cc".toList⟩⟩ : File)] → F.Hash.Type_ = hashKind 1 :=
  ⟨by decide,
    ((Files_uses_first_nonempty_hash_field ParseQuoteWord [".gz".toList] 3 recordTwoHashFields 1
      (by decide) (by decide) (by decide)).2.1
        ⟨true, [], [⟨[], 10, "pool/f/f_1.dsc".toList, "dsc".toList,
          ⟨"SHA256".toList, "cc".toList⟩⟩]⟩ (by decide)).1⟩

/-- C2 (refuted as stated): for the record whose only hash field is Checksums-Sha256 with
the triplet "abc123 1234 foo_1.0.orig.tar.gz", with ".gz" a known compression extension,
`Files` yields one entry whose Type is "tar"; there is no result with one entry of
Type "gz". -/
theorem Files_orig_tar_gz_type_not_gz :
    Files ParseQuoteWord [".gz".toList] 3 recordSha256 =
      some ⟨true, [], [⟨[], 1234, "foo_1.0.orig.tar.gz".toList, "tar".toList,
        ⟨"SHA256".toList, "abc123".toList⟩⟩]⟩ ∧
    ¬ ∃ r F, Files ParseQuoteWord [".gz".toList] 3 recordSha256 = some r ∧ r.List = [F] ∧
      F.Type_ = "gz".toList := by
  have he : Files ParseQuoteWord [".gz".toList] 3 recordSha256 =
      some ⟨true, [], [⟨[], 1234, "foo_1.0.orig.tar.gz".toList, "tar".toList,
        ⟨"SHA256".toList, "abc123".toList⟩⟩]⟩ := by decide
  refine ⟨he, ?_⟩
  rintro ⟨r, F, h1, h2, h3⟩
  rw [he] at h1
  cases h1
  simp only [List.cons.injEq, and_true] at h2
  subst h2
  revert h3
  decide

/-- C2 (as the code behaves) at the record with the triplet "abc123 1234 foo_1.0.orig.tar.gz". -/
theorem Files_single_sha256_triplet_witness :
    Files ParseQuoteWord [".gz".toList] 3 recordSha256 =
      some ⟨true, [],
        [⟨[], 1234, Files.base recordSha256 ++ "foo_1.0.orig.tar.gz".toList, "tar".toList,
          ⟨"SHA256".toList, "abc123".toList⟩⟩]⟩ ∧
    "foo_1.0.orig.tar.gz".toList <:+ Files.base recordSha256 ++ "foo_1.0.orig.tar.gz".toList :=
  Files_single_sha256_triplet ParseQuoteWord [".gz".toList] 0 recordSha256 "abc123".toList
    "1234 foo_1.0.orig.tar.gz".toList "foo_1.0.orig.tar.gz".toList
    (by decide) (by decide) (by decide) (by decide) (by decide) (by decide) (by decide)

/-- C3 at the path "pkg_1.0.debian.tar.xz" with ".xz" a known compression extension. -/
theorem Files_type_of_debian_tar_witness :
    Files.typeOf [".xz".toList] 3 "pkg_1.0.debian.tar.xz".toList = some "diff".toList :=
  Files_type_of_debian_tar [".xz".toList] "pkg_1.0".toList "xz".toList 0
    (by decide) (by decide) (by decide) (by decide)

/-- C4 at a record with all four fields: the tuples come from Build-Depends and
Build-Conflicts only. -/
theorem BuildDepends_ArchOnly_skips_Indep_witness :
    BuildDepends ParseDepends 3 true false recordAllFour =
      some ⟨true, [], [⟨"a".toList, [], 0, 0⟩, ⟨"b".toList, [], 0, 0⟩, ⟨"e".toList, [], 0, 2⟩]⟩ ∧
    ∀ t, t ∈ [(⟨"a".toList, [], 0, 0⟩ : BuildDepRec), ⟨"b".toList, [], 0, 0⟩,
        ⟨"e".toList, [], 0, 2⟩] →
      (t.Type_ = 0 ∨ t.Type_ = 2) ∧ t.Type_ ≠ 1 ∧ t.Type_ ≠ 3 :=
  ⟨by decide,
    (BuildDepends_ArchOnly_skips_Indep ParseDepends 3 false recordAllFour
      ⟨true, [], [⟨"a".toList, [], 0, 0⟩, ⟨"b".toList, [], 0, 0⟩, ⟨"e".toList, [], 0, 2⟩]⟩
      (by decide)).1⟩

/-- C5 at a record whose Build-Depends field has an empty clause, and at one whose second
clause cannot be parsed. -/
theorem BuildDepends_drops_empty_package_witness :
    BuildDepends ParseDepends 3 false false recordAllFour =
      some ⟨true, [], [⟨"a".toList, [], 0, 0⟩, ⟨"b".toList, [], 0, 0⟩, ⟨"d".toList, [], 0, 1⟩,
        ⟨"e".toList, [], 0, 2⟩, ⟨"g".toList, [], 0, 3⟩]⟩ ∧
    (∀ t, t ∈ [(⟨"a".toList, [], 0, 0⟩ : BuildDepRec), ⟨"b".toList, [], 0, 0⟩,
        ⟨"d".toList, [], 0, 1⟩, ⟨"e".toList, [], 0, 2⟩, ⟨"g".toList, [], 0, 3⟩] →
      t.Package ≠ []) ∧
    ∃ r, BuildDepends ParseDepends 3 false false recordUnclosed = some r ∧ r.ret = false ∧
      r.errors = ["Problem parsing dependency: ".toList ++ BuildDepends.fields 0] :=
  ⟨by decide,
    (BuildDepends_drops_empty_package ParseDepends 3 false false recordAllFour).1
      ⟨true, [], [⟨"a".toList, [], 0, 0⟩, ⟨"b".toList, [], 0, 0⟩, ⟨"d".toList, [], 0, 1⟩,
        ⟨"e".toList, [], 0, 2⟩, ⟨"g".toList, [], 0, 3⟩]⟩ (by decide),
    (BuildDepends_drops_empty_package ParseDepends 3 false false recordUnclosed).2.2 0
      (fun _ => []) [⟨"a".toList, [], 0, "b (>= 2".toList⟩] (by decide)
      (fun J hJ => absurd hJ (Nat.not_lt_zero J)) (by decide)⟩

/-- C8 (refuted as stated): on the record whose Build-Depends field is "a, b (>= 2" the
parser reads the clause "a" and fails on the next one; `BuildDepends` returns failure with
the error naming Build-Depends, and its output list still holds the tuple for "a". -/
theorem BuildDepends_partial_list_on_failure :
    clausesOf ParseDepends false 3 "a, b (>= 2".toList =
      some ([⟨"a".toList, [], 0, "b (>= 2".toList⟩], false) ∧
    BuildDepends ParseDepends 3 false false recordUnclosed =
      some ⟨false, ["Problem parsing dependency: Build-Depends".toList],
        [⟨"a".toList, [], 0, 0⟩]⟩ ∧
    ¬ ∃ r, BuildDepends ParseDepends 3 false false recordUnclosed = some r ∧ r.BuildDeps = [] := by
  have he : BuildDepends ParseDepends 3 false false recordUnclosed =
      some ⟨false, ["Problem parsing dependency: Build-Depends".toList],
        [⟨"a".toList, [], 0, 0⟩]⟩ := by decide
  refine ⟨by decide, he, ?_⟩
  rintro ⟨r, h1, h2⟩
  rw [he] at h1
  cases h1
  simp at h2

/-- C8 (as the code behaves) at the record whose Build-Depends field is "a, b (>= 2". -/
theorem BuildDepends_failure_keeps_parsed_witness :
    fieldClauses ParseDepends 3 false false recordUnclosed 0 =
      some ([⟨"a".toList, [], 0, "b (>= 2".toList⟩], false) ∧
    BuildDepends ParseDepends 3 false false recordUnclosed =
      some ⟨false, ["Problem parsing dependency: ".toList ++ BuildDepends.fields 0],
        retainedBefore (fun _ => []) 0 ++ retained 0 [⟨"a".toList, [], 0, "b (>= 2".toList⟩]⟩ :=
  ⟨by decide,
    BuildDepends_failure_keeps_parsed ParseDepends 3 false false recordUnclosed 0
      (fun _ => []) [⟨"a".toList, [], 0, "b (>= 2".toList⟩] (by decide)
      (fun J hJ => absurd hJ (Nat.not_lt_zero J)) (by decide)⟩

/-- C9 at a record with all four fields. -/
theorem BuildDepends_field_then_clause_order_witness :
    BuildDepends ParseDepends 3 false false recordAllFour =
      some ⟨true, [], [⟨"a".toList, [], 0, 0⟩, ⟨"b".toList, [], 0, 0⟩, ⟨"d".toList, [], 0, 1⟩,
        ⟨"e".toList, [], 0, 2⟩, ⟨"g".toList, [], 0, 3⟩]⟩ ∧
    ∃ c0 c1 c2 c3 : List DepClause,
      fieldClauses ParseDepends 3 false false recordAllFour 0 = some (c0, true) ∧
      fieldClauses ParseDepends 3 false false recordAllFour 1 = some (c1, true) ∧
      fieldClauses ParseDepends 3 false false recordAllFour 2 = some (c2, true) ∧
      fieldClauses ParseDepends 3 false false recordAllFour 3 = some (c3, true) ∧
      [(⟨"a".toList, [], 0, 0⟩ : BuildDepRec), ⟨"b".toList, [], 0, 0⟩, ⟨"d".toList, [], 0, 1⟩,
        ⟨"e".toList, [], 0, 2⟩, ⟨"g".toList, [], 0, 3⟩] =
        retained 0 c0 ++ retained 1 c1 ++ retained 2 c2 ++ retained 3 c3 ∧
      [(⟨"a".toList, [], 0, 0⟩ : BuildDepRec), ⟨"b".toList, [], 0, 0⟩, ⟨"d".toList, [], 0, 1⟩,
        ⟨"e".toList, [], 0, 2⟩, ⟨"g".toList, [], 0, 3⟩].Pairwise
          (fun a b => a.Type_ ≤ b.Type_) :=
  ⟨by decide,
    BuildDepends_field_then_clause_order ParseDepends 3 false false recordAllFour
      ⟨true, [], [⟨"a".toList, [], 0, 0⟩, ⟨"b".toList, [], 0, 0⟩, ⟨"d".toList, [], 0, 1⟩,
        ⟨"e".toList, [], 0, 2⟩, ⟨"g".toList, [], 0, 3⟩]⟩ (by decide) rfl⟩

/-- C7 (refuted as stated): on the record whose Files field is "aa 10 f_1.dsc bb" the
tokenizer reads one triplet and fails on the next; `Files` returns failure with the error
naming Files, and its output list still holds the entry for "f_1.dsc". -/
theorem Files_partial_list_on_failure :
    tripletsOf ParseQuoteWord 3 (c_str "aa 10 f_1.dsc bb".toList) =
      some ([⟨"aa".toList, "10".toList, "f_1.dsc".toList⟩], false) ∧
    Files ParseQuoteWord [".gz".toList] 3 recordCutOff =
      some ⟨false, ["Error parsing 'Files' record".toList],
        [⟨"aa".toList, 10, "f_1.dsc".toList, "dsc".toList, ⟨"MD5Sum".toList, "aa".toList⟩⟩]⟩ ∧
    ¬ ∃ r, Files ParseQuoteWord [".gz".toList] 3 recordCutOff = some r ∧ r.List = [] := by
  have he : Files ParseQuoteWord [".gz".toList] 3 recordCutOff =
      some ⟨false, ["Error parsing 'Files' record".toList],
        [⟨"aa".toList, 10, "f_1.dsc".toList, "dsc".toList, ⟨"MD5Sum".toList, "aa".toList⟩⟩]⟩ := by
    decide
  refine ⟨by decide, he, ?_⟩
  rintro ⟨r, h1, h2⟩
  rw [he] at h1
  cases h1
  simp at h2

/-- C7 (as the code behaves) at the record whose Files field is "aa 10 f_1.dsc bb". -/
theorem Files_failure_keeps_parsed_witness :
    tripletsOf ParseQuoteWord 3 (c_str (recordCutOff.FindS (hashField 3))) =
      some ([⟨"aa".toList, "10".toList, "f_1.dsc".toList⟩], false) ∧
    Files ParseQuoteWord [".gz".toList] 3 recordCutOff =
      some ⟨false, ["Error parsing '".toList ++ hashField 3 ++ "' record".toList],
        [⟨"aa".toList, 10, "f_1.dsc".toList, "dsc".toList, ⟨"MD5Sum".toList, "aa".toList⟩⟩]⟩ ∧
    [(⟨"aa".toList, 10, "f_1.dsc".toList, "dsc".toList,
        ⟨"MD5Sum".toList, "aa".toList⟩⟩ : File)].length =
      [(⟨"aa".toList, "10".toList, "f_1.dsc".toList⟩ : Triplet)].length :=
  ⟨by decide,
    Files_failure_keeps_parsed ParseQuoteWord [".gz".toList] 3 recordCutOff 3
      [⟨"aa".toList, "10".toList, "f_1.dsc".toList⟩]
      [⟨"aa".toList, 10, "f_1.dsc".toList, "dsc".toList, ⟨"MD5Sum".toList, "aa".toList⟩⟩]
      (by decide) (by decide) (by decide) (by decide) (by decide)⟩

/-- C10 at a record with Directory "pool/f": the Path is "pool/f/f_1.dsc". -/
theorem Files_Path_is_Directory_then_name_witness :
    Files ParseQuoteWord [".gz".toList] 3 recordTwoHashFields =
      some ⟨true, [], [⟨[], 10, "pool/f/f_1.dsc".toList, "dsc".toList,
        ⟨"SHA256".toList, "cc".toList⟩⟩]⟩ ∧
    ∃ ts ok, tripletsOf ParseQuoteWord 3 (c_str (recordTwoHashFields.FindS (hashField 1))) =
        some (ts, ok) ∧
      List.Forall₂ (fun (F : File) (t : Triplet) =>
        (recordTwoHashFields.FindS "Directory".toList = [] → F.Path = t.Path) ∧
        (recordTwoHashFields.FindS "Directory".toList ≠ [] →
          (recordTwoHashFields.FindS "Directory".toList).getLast? = some '/' →
          F.Path = recordTwoHashFields.FindS "Directory".toList ++ t.Path) ∧
        (recordTwoHashFields.FindS "Directory".toList ≠ [] →
          (recordTwoHashFields.FindS "Directory".toList).getLast? ≠ some '/' →
          F.Path = recordTwoHashFields.FindS "Directory".toList ++ '/' :: t.Path) ∧
        t.Path <:+ F.Path)
        [(⟨[], 10, "pool/f/f_1.dsc".toList, "dsc".toList, ⟨"SHA256".toList, "cc".toList⟩⟩ : File)]
        ts :=
  ⟨by decide,
    Files_Path_is_Directory_then_name ParseQuoteWord [".gz".toList] 3 recordTwoHashFields 1
      ⟨true, [], [⟨[], 10, "pool/f/f_1.dsc".toList, "dsc".toList,
        ⟨"SHA256".toList, "cc".toList⟩⟩]⟩ (by decide) (by decide) (by decide) (by decide)⟩

/-! ## Null and list results of `Binaries` -/

/-- A normal exit of the loop of `Binaries` has pushed at least one pointer. -/
theorem Binaries_scan_pushes :
    ∀ (fuel : Nat) (Buffer : Str) (bin : Nat) (l0 : List Nat) (Buffer1 : Str) (l : List Nat),
      Binaries.scan fuel Buffer bin l0 = some (some (Buffer1, l)) →
        ∃ l1, l1 ≠ [] ∧ l = l0 ++ l1 := by
  intro fuel
  induction fuel with
  | zero => intro Buffer bin l0 Buffer1 l h; simp [Binaries.scan] at h
  | succ n ih =>
    intro Buffer bin l0 Buffer1 l h
    rw [Binaries.scan] at h
    rcases hs : strchrnul Buffer bin ',' with _ | binEnd
    · simp [hs] at h
    simp only [hs] at h
    by_cases h1 : isspace (byteAt Buffer binEnd) = true
    · rw [if_pos h1] at h
      simp at h
    rw [if_neg h1] at h
    by_cases h2 : (byteAt Buffer (binEnd + 1) != ',') = true
    · rw [if_pos h2] at h
      simp only [Option.some.injEq, Prod.mk.injEq] at h
      exact ⟨[bin], by simp, h.2.symm⟩
    rw [if_neg h2] at h
    by_cases h3 : (byteAt (Buffer.set (binEnd + 1) NUL)
        (skipSpaces (Buffer.set (binEnd + 1) NUL) (binEnd + 1 + 1)) != NUL) = true
    · rw [if_pos h3] at h
      obtain ⟨l1, _, hl⟩ := ih _ _ _ _ _ h
      exact ⟨bin :: l1, by simp, by simp [hl]⟩
    · rw [if_neg h3] at h
      simp only [Option.some.injEq, Prod.mk.injEq] at h
      exact ⟨[bin], by simp, h.2.symm⟩

/-- C11: `Binaries` returns the null pointer exactly when the record has no Binary field
or the field is empty after its leading white space; a list it returns has at least one
name and its only null entry is the final terminator; but a record with content need not
get a list: on the Binary field "libfoo1 , libfoo-dev" the white space before the comma
makes the call dereference a null pointer, with no defined result. -/
theorem Binaries_null_or_list :
    (∀ Sect : pkgTagSection, Binaries Sect = some BinariesResult.null ↔
      (Sect.Find "Binary".toList = none ∨
        ∃ field, Sect.Find "Binary".toList = some field ∧ field.dropWhile isspace = [])) ∧
    (∀ (Sect : pkgTagSection) (l : List (Option Str)),
      Binaries Sect = some (BinariesResult.list l) →
        ∃ names : List Str, names ≠ [] ∧ l = names.map some ++ [none]) ∧
    Binaries recordBinarySpace = some BinariesResult.undefined := by
  refine ⟨?_, ?_, by decide⟩
  · intro Sect
    unfold Binaries
    rcases hf : Sect.Find "Binary".toList with _ | field
    · constructor
      · intro _; exact Or.inl rfl
      · intro _; rfl
    simp only []
    by_cases hs : field.dropWhile isspace = []
    · rw [if_pos hs]
      constructor
      · intro _; exact Or.inr ⟨field, rfl, hs⟩
      · intro _; rfl
    rw [if_neg hs]
    constructor
    · intro h
      rcases hsc : Binaries.scan ((c_str (field.dropWhile isspace)).length + 1)
        (c_str (field.dropWhile isspace)) 0 [] with _ | _ | ⟨B, l⟩ <;> rw [hsc] at h <;>
        simp at h
    · rintro (h | ⟨field', h1, h2⟩)
      · cases h
      · cases h1
        exact absurd h2 hs
  · intro Sect l h
    unfold Binaries at h
    rcases hf : Sect.Find "Binary".toList with _ | field
    · rw [hf] at h
      simp at h
    rw [hf] at h
    simp only [] at h
    by_cases hs : field.dropWhile isspace = []
    · rw [if_pos hs] at h
      simp at h
    rw [if_neg hs] at h
    rcases hsc : Binaries.scan ((c_str (field.dropWhile isspace)).length + 1)
      (c_str (field.dropWhile isspace)) 0 [] with _ | _ | ⟨B, ptrs⟩
    · rw [hsc] at h; simp at h
    · rw [hsc] at h; simp at h
    · rw [hsc] at h
      simp only [Option.some.injEq, BinariesResult.list.injEq] at h
      obtain ⟨l1, hne, hl⟩ := Binaries_scan_pushes _ _ _ _ _ _ hsc
      refine ⟨ptrs.map (fun p => c_str (B.drop p)), ?_, ?_⟩
      · simp only [List.nil_append] at hl
        subst hl
        simpa using hne
      · rw [← h]
        simp [List.map_map, Function.comp]

/-! ## Empty and non-empty results of `Files` -/

/-- Outcome of `Files` when no row of the table has field content. -/
theorem Files_none_selected (pqw : WordParser) (compExts : List Str) (fuel : Nat)
    (Sect : pkgTagSection) (h : ∀ j, j < 4 → Sect.FindS (hashField j) = []) :
    Files pqw compExts fuel Sect = some ⟨false, [], []⟩ := by
  have h0 : Sect.FindS "Checksums-Sha512".toList = [] := h 0 (by omega)
  have h1 : Sect.FindS "Checksums-Sha256".toList = [] := h 1 (by omega)
  have h2 : Sect.FindS "Checksums-Sha1".toList = [] := h 2 (by omega)
  have h3 : Sect.FindS "Files".toList = [] := h 3 (by omega)
  unfold Files SourceHashFields
  simp only [Files.fieldLoop, h0, h1, h2, h3, if_true]

/-- A record has a first row with field content, or none at all. -/
theorem selected_cases (Sect : pkgTagSection) :
    (∀ j, j < 4 → Sect.FindS (hashField j) = []) ∨
    ∃ i, i < 4 ∧ (∀ j, j < i → Sect.FindS (hashField j) = []) ∧
      Sect.FindS (hashField i) ≠ [] := by
  by_cases h0 : Sect.FindS (hashField 0) = []
  · by_cases h1 : Sect.FindS (hashField 1) = []
    · by_cases h2 : Sect.FindS (hashField 2) = []
      · by_cases h3 : Sect.FindS (hashField 3) = []
        · left
          intro j hj
          interval_cases j <;> assumption
        · right
          refine ⟨3, by omega, ?_, h3⟩
          intro j hj
          interval_cases j <;> assumption
      · right
        refine ⟨2, by omega, ?_, h2⟩
        intro j hj
        interval_cases j <;> assumption
    · right
      refine ⟨1, by omega, ?_, h1⟩
      intro j hj
      interval_cases j; assumption
  · right
    exact ⟨0, by omega, fun j hj => absurd hj (Nat.not_lt_zero j), h0⟩

/-- The outcome of `Files` without error, when row `i` is the selected one. -/
theorem Files_no_error (pqw : WordParser) (compExts : List Str) (fuel : Nat)
    (Sect : pkgTagSection) (i : Nat) (hi : i < 4)
    (hfirst : ∀ j, j < i → Sect.FindS (hashField j) = [])
    (hne : Sect.FindS (hashField i) ≠ []) (r : FilesResult)
    (h : Files pqw compExts fuel Sect = some r) (herr : r.errors = []) :
    ∃ ts, tripletsOf pqw fuel (c_str (Sect.FindS (hashField i))) = some (ts, true) ∧
      r.List.length = ts.length ∧ r.ret = decide (0 < r.List.length) := by
  rw [Files_of_first pqw compExts fuel Sect i hi hfirst hne] at h
  rcases ht : tripletsOf pqw fuel (c_str (Sect.FindS (hashField i))) with _ | ⟨ts, ok⟩
  · simp [ht] at h
  rcases he : Files.entries compExts fuel (hashKind i) (Files.base Sect) ts with _ | Fs
  · simp [ht, he] at h
  simp only [ht, he, Option.some.injEq] at h
  subst h
  cases ok
  · simp at herr
  · refine ⟨ts, rfl, ?_, ?_⟩
    · simpa using (entries_spec compExts fuel _ _ ts Fs he).length_eq
    · simp

/-- C12: when `Files` returns without having reported an error, the returned flag is true
exactly when the output list is not empty; with row `i` the selected hash field, the list
has one entry for each triplet of that field, so it is not empty exactly when the field
held a triplet; and when no hash field has content, `Files` returns false with an empty
list and no error. -/
theorem Files_nonempty_iff_triplet_found (pqw : WordParser) (compExts : List Str) (fuel : Nat)
    (Sect : pkgTagSection) :
    (∀ r, Files pqw compExts fuel Sect = some r → r.errors = [] →
      (r.ret = true ↔ r.List ≠ [])) ∧
    (∀ i, i < 4 → (∀ j, j < i → Sect.FindS (hashField j) = []) →
      Sect.FindS (hashField i) ≠ [] →
      ∀ r, Files pqw compExts fuel Sect = some r → r.errors = [] →
        ∃ ts, tripletsOf pqw fuel (c_str (Sect.FindS (hashField i))) = some (ts, true) ∧
          r.List.length = ts.length ∧ (r.List ≠ [] ↔ ts ≠ [])) ∧
    ((∀ j, j < 4 → Sect.FindS (hashField j) = []) →
      Files pqw compExts fuel Sect = some ⟨false, [], []⟩) := by
  refine ⟨?_, ?_, Files_none_selected pqw compExts fuel Sect⟩
  · intro r h herr
    rcases selected_cases Sect with hnone | ⟨i, hi, hfirst, hne⟩
    · rw [Files_none_selected pqw compExts fuel Sect hnone] at h
      cases h
      simp
    · obtain ⟨ts, _, _, hret⟩ :=
        Files_no_error pqw compExts fuel Sect i hi hfirst hne r h herr
      rw [hret]
      simp [List.length_pos]
  · intro i hi hfirst hne r h herr
    obtain ⟨ts, ht, hlen, _⟩ := Files_no_error pqw compExts fuel Sect i hi hfirst hne r h herr
    refine ⟨ts, ht, hlen, ?_⟩
    rw [← List.length_pos, ← List.length_pos, hlen]

/-- C12 at a record with one Checksums-Sha256 triplet, and at a record with no hash
field. -/
theorem Files_nonempty_iff_triplet_found_witness :
    Files ParseQuoteWord [".gz".toList] 3 recordTwoHashFields =
      some ⟨true, [], [⟨[], 10, "pool/f/f_1.dsc".toList, "dsc".toList,
        ⟨"SHA256".toList, "cc".toList⟩⟩]⟩ ∧
    (true = true ↔ [(⟨[], 10, "pool/f/f_1.dsc".toList, "dsc".toList,
        ⟨"SHA256".toList, "cc".toList⟩⟩ : File)] ≠ []) ∧
    Files ParseQuoteWord [".gz".toList] 3 recordAllFour = some ⟨false, [], []⟩ :=
  ⟨by decide,
    (Files_nonempty_iff_triplet_found ParseQuoteWord [".gz".toList] 3 recordTwoHashFields).1
      ⟨true, [], [⟨[], 10, "pool/f/f_1.dsc".toList, "dsc".toList,
        ⟨"SHA256".toList, "cc".toList⟩⟩]⟩ (by decide) rfl,
    (Files_nonempty_iff_triplet_found ParseQuoteWord [".gz".toList] 3 recordAllFour).2.2
      (by decide)⟩

/-! ## Matchers -/

/-- C13: a `PackageMatcher` that defines only the package operator answers a version with
what it answers that version's parent package, and answers false on every group. -/
theorem PackageMatcher_projects_to_parent {PkgIterator GrpIterator VerIterator : Type}
    (ParentPkg : VerIterator → PkgIterator) (callPkg : PkgIterator → Bool) :
    (∀ Ver : VerIterator,
      (PackageMatcher ParentPkg callPkg : Matcher PkgIterator GrpIterator VerIterator).callVer Ver =
        (PackageMatcher ParentPkg callPkg :
          Matcher PkgIterator GrpIterator VerIterator).callPkg (ParentPkg Ver)) ∧
    (∀ Grp : GrpIterator,
      (PackageMatcher ParentPkg callPkg :
        Matcher PkgIterator GrpIterator VerIterator).callGrp Grp = false) :=
  ⟨fun _ => rfl, fun _ => rfl⟩

/-- C14: an `ANDMatcher` without children matches every package, group and version, and an
`ORMatcher` without children matches none. -/
theorem ANDMatcher_ORMatcher_empty {PkgIterator GrpIterator VerIterator : Type}
    (Pkg : PkgIterator) (Grp : GrpIterator) (Ver : VerIterator) :
    ((ANDMatcher [] : Matcher PkgIterator GrpIterator VerIterator).callPkg Pkg = true ∧
      (ANDMatcher [] : Matcher PkgIterator GrpIterator VerIterator).callGrp Grp = true ∧
      (ANDMatcher [] : Matcher PkgIterator GrpIterator VerIterator).callVer Ver = true) ∧
    ((ORMatcher [] : Matcher PkgIterator GrpIterator VerIterator).callPkg Pkg = false ∧
      (ORMatcher [] : Matcher PkgIterator GrpIterator VerIterator).callGrp Grp = false ∧
      (ORMatcher [] : Matcher PkgIterator GrpIterator VerIterator).callVer Ver = false) :=
  ⟨⟨rfl, rfl, rfl⟩, ⟨rfl, rfl, rfl⟩⟩

/-- C15: a `NOTMatcher` of a `NOTMatcher` of `m` answers every package, group and version
as `m` does. -/
theorem NOTMatcher_NOTMatcher {PkgIterator GrpIterator VerIterator : Type}
    (m : Matcher PkgIterator GrpIterator VerIterator) (Pkg : PkgIterator) (Grp : GrpIterator)
    (Ver : VerIterator) :
    (NOTMatcher (NOTMatcher m)).callPkg Pkg = m.callPkg Pkg ∧
    (NOTMatcher (NOTMatcher m)).callGrp Grp = m.callGrp Grp ∧
    (NOTMatcher (NOTMatcher m)).callVer Ver = m.callVer Ver := by
  simp [NOTMatcher]

/-- Slot matching does not depend on the order of the two slots. -/
theorem slotMatches_comm (a b : Str) : ArchSpec.slotMatches a b = ArchSpec.slotMatches b a := by
  unfold ArchSpec.slotMatches
  generalize "any".toList = w
  by_cases ha : a = w <;> by_cases hb : b = w <;>
    by_cases hab : a = b <;> simp [ha, hb, hab, eq_comm]

/-- Compatibility does not depend on the order of the two specifications. -/
theorem compatible_comm (a b : ArchSpec) : ArchSpec.compatible a b = ArchSpec.compatible b a := by
  unfold ArchSpec.compatible
  rw [slotMatches_comm a.libc, slotMatches_comm a.kernel, slotMatches_comm a.cpu]

/-- The call of the matcher compares the two parsed strings, whichever is the pattern. -/
theorem call_eq (table : Str → Option ArchSpec) (A B : Str) (p : Bool) :
    PackageArchitectureMatchesSpecification.call table ⟨A, p⟩ B =
      match ArchSpec.parse table A, ArchSpec.parse table B with
      | some a, some b => ArchSpec.compatible a b
      | _, _ => false := by
  unfold PackageArchitectureMatchesSpecification.call
  cases p
  · simp only [Bool.false_eq_true, if_false]
    rcases ArchSpec.parse table A with _ | a <;> rcases ArchSpec.parse table B with _ | b
    · rfl
    · rfl
    · rfl
    · exact compatible_comm b a
  · simp only [if_true]

/-- C16: matching the architecture specification string `A` against `B` gives what
matching `B` against `A` gives, whichever of the two is the pattern; and the specification
"any" matches every architecture specification string `X` (one to three tokens). -/
theorem PackageArchitectureMatchesSpecification_symmetric (table : Str → Option ArchSpec) :
    (∀ (A B : Str) (p q : Bool),
      PackageArchitectureMatchesSpecification.call table ⟨A, p⟩ B =
        PackageArchitectureMatchesSpecification.call table ⟨B, q⟩ A) ∧
    (∀ (X : Str) (p : Bool), (ArchSpec.parse table X).isSome = true →
      PackageArchitectureMatchesSpecification.call table ⟨"any".toList, p⟩ X = true) := by
  constructor
  · intro A B p q
    rw [call_eq, call_eq]
    rcases ArchSpec.parse table A with _ | a <;> rcases ArchSpec.parse table B with _ | b
    · rfl
    · rfl
    · rfl
    · exact compatible_comm a b
  · intro X p hX
    rw [call_eq]
    have hany : ArchSpec.parse table "any".toList =
        some ⟨"any".toList, "any".toList, "any".toList⟩ := by
      unfold ArchSpec.parse
      have : splitDash "any".toList [] = ["any".toList] := by decide
      rw [this]
      simp
    rw [hany]
    rcases hx : ArchSpec.parse table X with _ | x
    · rw [hx] at hX; simp at hX
    · simp [ArchSpec.compatible, ArchSpec.slotMatches]

/-- C16 at the strings "linux-any" and "i386", with a table that knows "i386". -/
theorem PackageArchitectureMatchesSpecification_symmetric_witness :
    PackageArchitectureMatchesSpecification.call sampleArchTable ⟨"linux-any".toList, true⟩
        "i386".toList =
      PackageArchitectureMatchesSpecification.call sampleArchTable ⟨"i386".toList, true⟩
        "linux-any".toList ∧
    PackageArchitectureMatchesSpecification.call sampleArchTable ⟨"linux-any".toList, true⟩
        "i386".toList = true ∧
    PackageArchitectureMatchesSpecification.call sampleArchTable ⟨"any".toList, true⟩
        "musl-linux-amd64".toList = true :=
  ⟨(PackageArchitectureMatchesSpecification_symmetric sampleArchTable).1 "linux-any".toList
      "i386".toList true true,
    by decide,
    (PackageArchitectureMatchesSpecification_symmetric sampleArchTable).2
      "musl-linux-amd64".toList true (by decide)⟩

/-! ## The type loop on a path that starts with a dot -/

/-- A round of the type loop on the path ".gz" at `Pos = npos` with type "gz" leads to
the same state. -/
theorem guessType_dot_gz_round (n : Nat) :
    Files.guessType [".gz".toList] ".gz".toList (n + 1) npos "gz".toList =
      Files.guessType [".gz".toList] ".gz".toList n npos "gz".toList := by
  rw [Files.guessType]
  have h1 : rfind ".gz".toList '.' npos = 0 := by decide
  have h2 : ¬ ((0 : Nat) = npos) := by decide
  have h3 : substr ".gz".toList ((0 + 1) % SIZE_T) ((npos + SIZE_T - 0) % SIZE_T) =
      "gz".toList := by decide
  have h4 : (0 + SIZE_T - 1) % SIZE_T = npos := by decide
  have h5 : ¬ ("gz".toList = "tar".toList) := by decide
  have h6 : '.' :: "gz".toList ∈ [".gz".toList] := by decide
  simp only [h1, h2, h3, h4, h5, h6, if_false, true_or, if_true]

/-- The type loop on the path ".gz" at `Pos = npos` with type "gz" does not leave. -/
theorem guessType_dot_gz_loops :
    ∀ n : Nat, Files.guessType [".gz".toList] ".gz".toList n npos "gz".toList = none := by
  intro n
  induction n with
  | zero => rfl
  | succ n ih => rw [guessType_dot_gz_round, ih]

/-- C17: for the file name ".gz" with an empty Directory and ".gz" a known compression
extension, the type loop of `Files` does not end, whatever the number of rounds allowed:
the dot found at position 0 makes `Pos = Tmp - 1` wrap to `npos`, from where the same dot
is found again.  So `Files` does not return on a record listing that file.  For a path
that does not start with a dot the loop ends within as many rounds as the path has
characters, plus one. -/
theorem Files_type_loop_dot_gz_never_ends :
    (∀ fuel : Nat, Files.typeOf [".gz".toList] fuel ".gz".toList = none) ∧
    (∀ fuel : Nat, Files ParseQuoteWord [".gz".toList] fuel recordDotGz = none) ∧
    (∀ (compExts : List Str) (Path : Str) (fuel : Nat), Path.head? ≠ some '.' →
      Path.length < SIZE_T → Path.length < fuel →
      (Files.typeOf compExts fuel Path).isSome = true) := by
  have key : ∀ fuel : Nat, Files.typeOf [".gz".toList] fuel ".gz".toList = none := by
    intro fuel
    unfold Files.typeOf
    cases fuel with
    | zero => rfl
    | succ n =>
      rw [Files.guessType]
      have h0 : (".gz".toList.length + SIZE_T - 1) % SIZE_T = 2 := by decide
      have h1 : rfind ".gz".toList '.' 2 = 0 := by decide
      have h2 : ¬ ((0 : Nat) = npos) := by decide
      have h3 : substr ".gz".toList ((0 + 1) % SIZE_T) ((2 + SIZE_T - 0) % SIZE_T) =
          "gz".toList := by decide
      have h4 : (0 + SIZE_T - 1) % SIZE_T = npos := by decide
      have h5 : ¬ (([] : Str) = "tar".toList) := by decide
      have h6 : '.' :: "gz".toList ∈ [".gz".toList] := by decide
      simp only [h0, h1, h2, h3, h4, h5, h6, if_false, true_or, if_true]
      exact guessType_dot_gz_loops n
  refine ⟨key, ?_, fun compExts Path fuel hh hl hf =>
    typeOf_isSome compExts Path fuel hh hl hf⟩
  intro fuel
  have hne : recordDotGz.FindS (hashField 3) ≠ [] := by decide
  rw [Files_of_first ParseQuoteWord [".gz".toList] fuel recordDotGz 3 (by omega)
    (by decide) hne]
  rcases ht : tripletsOf ParseQuoteWord fuel (c_str (recordDotGz.FindS (hashField 3)))
    with _ | ⟨ts, ok⟩
  · rfl
  simp only []
  cases fuel with
  | zero => simp [tripletsOf] at ht
  | succ n =>
    have hb : Files.base recordDotGz = [] := by decide
    have hC : ¬ (c_str (recordDotGz.FindS (hashField 3)) = []) := by decide
    have w1 : ParseQuoteWord (c_str (recordDotGz.FindS (hashField 3))) =
        some ("aa".toList, "10 .gz".toList) := by decide
    have w2 : ParseQuoteWord "10 .gz".toList = some ("10".toList, ".gz".toList) := by decide
    have w3 : ParseQuoteWord ".gz".toList = some (".gz".toList, []) := by decide
    rw [tripletsOf] at ht
    simp only [hC, if_false, w1, w2, w3] at ht
    rcases hr : tripletsOf ParseQuoteWord n [] with _ | ⟨ts', ok'⟩
    · rw [hr] at ht; simp at ht
    rw [hr] at ht
    simp only [Option.some.injEq, Prod.mk.injEq] at ht
    obtain ⟨rfl, _⟩ := ht
    have he : Files.entry [".gz".toList] (n + 1) (hashKind 3) (Files.base recordDotGz)
        "aa".toList "10".toList ".gz".toList = none := by
      unfold Files.entry
      rw [hb]
      have : ([] : Str) ++ ".gz".toList = ".gz".toList := rfl
      rw [this, key (n + 1)]
    simp only [Files.entries, he]

/-! ## The size of an entry -/

/-- A digit is not white space. -/
theorem isspace_of_isdigit (c : Char) (h : isdigit c = true) : isspace c = false := by
  cases hs : isspace c with
  | false => rfl
  | true =>
    unfold isdigit at h
    simp only [Bool.and_eq_true, decide_eq_true_eq] at h
    unfold isspace at hs
    simp only [Bool.or_eq_true, decide_eq_true_eq] at hs
    rcases hs with ((((rfl | rfl) | rfl) | rfl) | rfl) | rfl <;>
      exact absurd h (by decide)

/-- On a string of digits `strtol` reads the whole string. -/
theorem strtol10_digits (s : Str) (hd : ∀ c, c ∈ s → isdigit c = true)
    (hv : digitsValue s 0 < 2 ^ 63) : strtol10 s = (digitsValue s 0 : Int) := by
  have hdrop : s.dropWhile isspace = s := by
    cases s with
    | nil => rfl
    | cons c cs =>
      rw [List.dropWhile_cons_of_neg]
      rw [isspace_of_isdigit c (hd c (List.mem_cons_self c cs))]
      simp
  have hhead : ¬ (s.head? = some '-' ∨ s.head? = some '+') := by
    cases s with
    | nil => simp
    | cons c cs =>
      have hc := hd c (List.mem_cons_self c cs)
      simp only [List.head?_cons, Option.some.injEq]
      rintro (rfl | rfl) <;> exact absurd hc (by decide)
  have hminus : ¬ (s.head? = some '-') := fun h => hhead (Or.inl h)
  have hplus : ¬ (s.head? = some '+') := fun h => hhead (Or.inr h)
  have htake : s.takeWhile isdigit = s := by
    rw [List.takeWhile_eq_self_iff]
    exact hd
  unfold strtol10
  simp only [hdrop, hminus, hplus, or_self, if_false, htake, decide_False]
  have h1 : ¬ ((digitsValue s 0 : Int) < -(2 ^ 63)) := by omega
  have h2 : ¬ ((2 : Int) ^ 63 - 1 < (digitsValue s 0 : Int)) := by omega
  simp only [Bool.false_eq_true, if_false, h1, h2]

/-- C18: for a size word that is a string of decimal digits denoting a number below 2^31,
the Size of the entry is that number; from 2^31 on it is not: the word is read with `atoi`,
whose result is an `int`, and for "2147483648" the entry gets the Size
18446744071562067968 instead of 2147483648. -/
theorem Files_Size_atoi :
    (∀ s : Str, (∀ c, c ∈ s → isdigit c = true) → digitsValue s 0 < 2 ^ 31 →
      sizeOfInt (atoi s) = digitsValue s 0) ∧
    digitsValue "2147483648".toList 0 = 2147483648 ∧
    sizeOfInt (atoi "2147483648".toList) = 18446744071562067968 ∧
    Files ParseQuoteWord [".gz".toList] 3 recordBigSize =
      some ⟨true, [], [⟨"aa".toList, 18446744071562067968, "big.tar".toList, "tar".toList,
        ⟨"MD5Sum".toList, "aa".toList⟩⟩]⟩ := by
  refine ⟨?_, by decide, by decide, by decide⟩
  intro s hd hv
  unfold atoi sizeOfInt
  rw [strtol10_digits s hd (by omega)]
  omega

/-! ## `ArchOnly` as a filter -/

/-- Filtering out the Indep types keeps the tuples of a field that is not an Indep field. -/
theorem filter_retained_keep (I : Nat) (cs : List DepClause) (hI : I ≠ 1 ∧ I ≠ 3) :
    (retained I cs).filter (fun t => decide (t.Type_ ≠ 1 ∧ t.Type_ ≠ 3)) = retained I cs := by
  rw [List.filter_eq_self]
  intro t ht
  rw [(mem_retained ht).1]
  simpa using hI

/-- Filtering out the Indep types drops the tuples of an Indep field. -/
theorem filter_retained_drop (I : Nat) (cs : List DepClause) (hI : I = 1 ∨ I = 3) :
    (retained I cs).filter (fun t => decide (t.Type_ ≠ 1 ∧ t.Type_ ≠ 3)) = [] := by
  rw [List.filter_eq_nil_iff]
  intro t ht
  rw [(mem_retained ht).1]
  rcases hI with rfl | rfl <;> simp

/-- C19: when `BuildDepends` succeeds with `ArchOnly = false`, the call with
`ArchOnly = true` (same record, same `StripMultiArch`) succeeds too, without error, and its
list is the `ArchOnly = false` list without the tuples of Type 1 (Depends-Indep) and
3 (Conflicts-Indep), the others in the same order. -/
theorem BuildDepends_ArchOnly_is_filter (pd : DepParser) (fuel : Nat) (StripMultiArch : Bool)
    (Sect : pkgTagSection) (r : BuildDependsResult)
    (h : BuildDepends pd fuel false StripMultiArch Sect = some r) (hok : r.ret = true) :
    BuildDepends pd fuel true StripMultiArch Sect =
      some ⟨true, [], r.BuildDeps.filter (fun t => decide (t.Type_ ≠ 1 ∧ t.Type_ ≠ 3))⟩ := by
  rcases BuildDepends_cases pd fuel false StripMultiArch Sect r h with
    ⟨c0, c1, c2, c3, h0, h1, h2, h3, rfl⟩ | ⟨I, _, f, cs, _, _, rfl⟩
  · have e0 : fieldClauses pd fuel true StripMultiArch Sect 0 = some (c0, true) := by
      rw [← h0]; simp [fieldClauses]
    have e1 : fieldClauses pd fuel true StripMultiArch Sect 1 = some ([], true) := by
      simp [fieldClauses]
    have e2 : fieldClauses pd fuel true StripMultiArch Sect 2 = some (c2, true) := by
      rw [← h2]; simp [fieldClauses]
    have e3 : fieldClauses pd fuel true StripMultiArch Sect 3 = some ([], true) := by
      simp [fieldClauses]
    rw [BuildDepends_of_success pd fuel true StripMultiArch Sect c0 [] c2 [] e0 e1 e2 e3]
    simp only [List.filter_append, filter_retained_keep 0 c0 (by omega),
      filter_retained_keep 2 c2 (by omega), filter_retained_drop 1 c1 (Or.inl rfl),
      filter_retained_drop 3 c3 (Or.inr rfl)]
    simp [retained]
  · simp at hok

/-- C19 at a record with all four fields. -/
theorem BuildDepends_ArchOnly_is_filter_witness :
    BuildDepends ParseDepends 3 false false recordAllFour =
      some ⟨true, [], [⟨"a".toList, [], 0, 0⟩, ⟨"b".toList, [], 0, 0⟩, ⟨"d".toList, [], 0, 1⟩,
        ⟨"e".toList, [], 0, 2⟩, ⟨"g".toList, [], 0, 3⟩]⟩ ∧
    BuildDepends ParseDepends 3 true false recordAllFour =
      some ⟨true, [], [(⟨"a".toList, [], 0, 0⟩ : BuildDepRec), ⟨"b".toList, [], 0, 0⟩,
        ⟨"d".toList, [], 0, 1⟩, ⟨"e".toList, [], 0, 2⟩, ⟨"g".toList, [], 0, 3⟩].filter
          (fun t => decide (t.Type_ ≠ 1 ∧ t.Type_ ≠ 3))⟩ :=
  ⟨by decide,
    BuildDepends_ArchOnly_is_filter ParseDepends 3 false recordAllFour
      ⟨true, [], [⟨"a".toList, [], 0, 0⟩, ⟨"b".toList, [], 0, 0⟩, ⟨"d".toList, [], 0, 1⟩,
        ⟨"e".toList, [], 0, 2⟩, ⟨"g".toList, [], 0, 3⟩]⟩ (by decide) rfl⟩

/-! ## The type and the Directory value -/

/-- Before a prefix without the character, positions found are those found without the
prefix, shifted by its length. -/
theorem rfindIdx_prefix (c : Char) (N : Str) :
    ∀ (B : Str), c ∉ B → ∀ Pos : Nat,
      rfindIdx c (B ++ N) (B.length + Pos) = (rfindIdx c N Pos).map (fun i => i + B.length) := by
  intro B
  induction B with
  | nil =>
    intro _ Pos
    cases h : rfindIdx c N Pos <;> simp [h]
  | cons b B ih =>
    intro hB Pos
    have hb : b ≠ c := by
      intro h
      apply hB
      simp [h]
    have hB' : c ∉ B := by
      intro h
      apply hB
      exact List.mem_cons_of_mem b h
    have e : (b :: B).length + Pos = (B.length + Pos) + 1 := by
      simp only [List.length_cons]; omega
    rw [e, List.cons_append, rfindIdx, ih hB' Pos]
    cases h : rfindIdx c N Pos with
    | none => simp [hb]
    | some i => simp; omega

/-- With a prefix without dots before a name that does not start with a dot, the type
loop runs as on the name alone. -/
theorem guessType_prefix (compExts : List Str) (B N : Str) (hB : '.' ∉ B)
    (hN : N.head? ≠ some '.') (hlen : (B ++ N).length < SIZE_T) :
    ∀ (fuel Pos : Nat) (Type_ : Str), Pos < N.length →
      Files.guessType compExts (B ++ N) fuel (B.length + Pos) Type_ =
        Files.guessType compExts N fuel Pos Type_ := by
  have hl : B.length + N.length < SIZE_T := by simpa using hlen
  intro fuel
  induction fuel with
  | zero => intro Pos Type_ _; rfl
  | succ n ih =>
    intro Pos Type_ hPos
    rw [Files.guessType, Files.guessType]
    simp only []
    have hpre := rfindIdx_prefix '.' N B hB Pos
    rcases hr : rfindIdx '.' N Pos with _ | i
    · rw [hr] at hpre
      simp [rfind, hr, hpre]
    · rw [hr] at hpre
      obtain ⟨h1, h2, h3⟩ := rfindIdx_some '.' N Pos i hr
      have hi0 : i ≠ 0 := by
        rintro rfl
        apply hN
        cases N with
        | nil => simp at h2
        | cons x xs => simpa using h3
      have r1 : rfind N '.' Pos = i := by simp [rfind, hr]
      have r2 : rfind (B ++ N) '.' (B.length + Pos) = i + B.length := by simp [rfind, hpre]
      have n1 : ¬ (i = npos) := by unfold npos; omega
      have n2 : ¬ (i + B.length = npos) := by unfold npos; omega
      have m1 : (i + 1) % SIZE_T = i + 1 := Nat.mod_eq_of_lt (by omega)
      have m2 : (i + B.length + 1) % SIZE_T = B.length + (i + 1) := by
        rw [Nat.mod_eq_of_lt (by omega)]; omega
      have m3 : (Pos + SIZE_T - i) % SIZE_T = Pos - i := by
        unfold SIZE_T at *; omega
      have m4 : (B.length + Pos + SIZE_T - (i + B.length)) % SIZE_T = Pos - i := by
        unfold SIZE_T at *; omega
      have m5 : (i + SIZE_T - 1) % SIZE_T = i - 1 := wrap_pred i (by omega) (by omega)
      have m6 : (i + B.length + SIZE_T - 1) % SIZE_T = B.length + (i - 1) := by
        rw [wrap_pred _ (by omega) (by omega)]; omega
      have hs : substr (B ++ N) (B.length + (i + 1)) (Pos - i) = substr N (i + 1) (Pos - i) := by
        unfold substr
        rw [List.drop_append]
      rw [r1, r2]
      simp only [n1, n2, if_false, m1, m2, m3, m4, m5, m6, hs]
      rw [ih (i - 1) _ (by omega)]

/-- The type guessed for a name that does not start with a dot is not changed by a
prefix without dots. -/
theorem typeOf_prefix (compExts : List Str) (fuel : Nat) (B N : Str) (hB : '.' ∉ B)
    (hN : N.head? ≠ some '.') (hlen : (B ++ N).length < SIZE_T) :
    Files.typeOf compExts fuel (B ++ N) = Files.typeOf compExts fuel N := by
  have hl : B.length + N.length < SIZE_T := by simpa using hlen
  unfold Files.typeOf
  cases N with
  | nil =>
    cases fuel with
    | zero => simp only [Files.guessType]
    | succ n =>
      rw [Files.guessType, Files.guessType]
      have e1' : rfind (B ++ []) '.' (((B ++ ([] : Str)).length + SIZE_T - 1) % SIZE_T) = npos := by
        unfold rfind
        rw [rfindIdx_none_of_not_mem]
        · rfl
        · intro h
          apply hB
          simpa using List.mem_of_mem_take h
      have e2 : rfind ([] : Str) '.' ((([] : Str).length + SIZE_T - 1) % SIZE_T) = npos := by
        simp [rfind, rfindIdx]
      simp only [e1', e2, if_true]
  | cons x xs =>
    have p1 : ((B ++ x :: xs).length + SIZE_T - 1) % SIZE_T = B.length + xs.length := by
      simp only [List.length_append, List.length_cons] at hl ⊢
      unfold SIZE_T at *; omega
    have p2 : ((x :: xs).length + SIZE_T - 1) % SIZE_T = xs.length := by
      simp only [List.length_cons] at hl ⊢
      unfold SIZE_T at *; omega
    rw [p1, p2]
    exact guessType_prefix compExts B (x :: xs) hB hN hlen fuel xs.length []
      (by simp)

/-- The directory prefix has no dot when the Directory value has none. -/
theorem base_no_dot (Sect : pkgTagSection)
    (h : '.' ∉ Sect.FindS "Directory".toList) : '.' ∉ Files.base Sect := by
  unfold Files.base
  simp only []
  split
  · intro hm
    rcases List.mem_append.mp hm with hm | hm
    · exact h hm
    · simp at hm
  · exact h

/-- C20 (refuted as stated): the records with Directory "v1.0" and "v1" list the same
file name "README"; the entry of the first gets the Type "0/README", that of the second
the empty Type. -/
theorem Files_type_depends_on_Directory :
    Files ParseQuoteWord [".gz".toList] 3 recordDottedDirectory =
      some ⟨true, [], [⟨"aa".toList, 10, "v1.0/README".toList, "0/README".toList,
        ⟨"MD5Sum".toList, "aa".toList⟩⟩]⟩ ∧
    Files ParseQuoteWord [".gz".toList] 3 recordPlainDirectory =
      some ⟨true, [], [⟨"aa".toList, 10, "v1/README".toList, [],
        ⟨"MD5Sum".toList, "aa".toList⟩⟩]⟩ ∧
    Files.typeOf [".gz".toList] 3 (Files.base recordDottedDirectory ++ "README".toList) ≠
      Files.typeOf [".gz".toList] 3 (Files.base recordPlainDirectory ++ "README".toList) := by
  decide

/-- C20 (as the code behaves): the type `Files` guesses comes from the full path.  For a
file name that does not start with a dot and two records whose Directory values contain
no dot, the type guessed for the entry is the same under both, and is the type guessed
from the file name alone. -/
theorem Files_type_same_for_dotless_Directory (compExts : List Str) (fuel : Nat)
    (Sect Sect' : pkgTagSection) (N : Str)
    (hD : '.' ∉ Sect.FindS "Directory".toList) (hD' : '.' ∉ Sect'.FindS "Directory".toList)
    (hN : N.head? ≠ some '.')
    (hlen : (Files.base Sect ++ N).length < SIZE_T)
    (hlen' : (Files.base Sect' ++ N).length < SIZE_T) :
    Files.typeOf compExts fuel (Files.base Sect ++ N) =
      Files.typeOf compExts fuel (Files.base Sect' ++ N) ∧
    Files.typeOf compExts fuel (Files.base Sect ++ N) = Files.typeOf compExts fuel N := by
  have h1 := typeOf_prefix compExts fuel (Files.base Sect) N (base_no_dot Sect hD) hN hlen
  have h2 := typeOf_prefix compExts fuel (Files.base Sect') N (base_no_dot Sect' hD') hN hlen'
  exact ⟨by rw [h1, h2], h1⟩

/-- C20 (as the code behaves) at the Directory values "pool/f" and "v1" and the file name
"f_1.tar.gz". -/
theorem Files_type_same_for_dotless_Directory_witness :
    Files.typeOf [".gz".toList] 4 (Files.base recordTwoHashFields ++ "f_1.tar.gz".toList) =
      Files.typeOf [".gz".toList] 4 (Files.base recordPlainDirectory ++ "f_1.tar.gz".toList) ∧
    Files.typeOf [".gz".toList] 4 (Files.base recordTwoHashFields ++ "f_1.tar.gz".toList) =
      Files.typeOf [".gz".toList] 4 "f_1.tar.gz".toList :=
  Files_type_same_for_dotless_Directory [".gz".toList] 4 recordTwoHashFields
    recordPlainDirectory "f_1.tar.gz".toList (by decide) (by decide) (by decide) (by decide)
    (by decide)

end Apt
